import Mathlib

/-!
Verification development for `nvim-markdown-notes-memgraph`.

The Python sources under `src/nvim_markdown_notes_memgraph/` are shallowly
embedded here.  Python strings are modelled as `List Char` (`Str`), the
Memgraph property graph as an explicit `Graph` record of node and edge
lists, and each Cypher statement issued by the code as a pure function on
that record following openCypher `MERGE` / `MATCH` / `DELETE` semantics.
Wall-clock time (`datetime.now()`) and the MD5 digest (`hashlib.md5`) are
external effects and are supplied through an `Env` record.
-/

set_option maxHeartbeats 1000000

namespace NotesGraph

/-- Python strings are modelled as lists of characters. -/
abbrev Str := List Char

/-! ## Basic string helpers (embeddings of `os.path` / `str` operations) -/

/-- `needle in hay` (Python substring containment). -/
def containsSub (needle hay : Str) : Bool :=
  match hay with
  | [] => needle = []
  | _ :: t => needle.isPrefixOf hay || containsSub needle t

/-- `os.path.basename`: the part of the path after the last `/`. -/
def basename (p : Str) : Str :=
  (p.reverse.takeWhile (fun c => c ≠ '/')).reverse

/-- Index of the last occurrence of `c` in `s`, if any (Python `str.rfind`). -/
def rfindChar (c : Char) (s : Str) : Option Nat :=
  (s.reverse.findIdx? (fun d => d = c)).map (fun j => s.length - 1 - j)

/-- `pathlib.Path(p).stem`: basename without its final suffix.  pathlib keeps
the whole name when the last dot is at position 0 or is the final character. -/
def pStem (p : Str) : Str :=
  let b := basename p
  match rfindChar '.' b with
  | some i => if 0 < i ∧ i < b.length - 1 then b.take i else b
  | none => b

/-- `os.path.splitext(b)[0]` for a bare filename `b` (no `/`): cut at the last
dot provided some earlier character of the name is not a dot. -/
def splitextRoot (b : Str) : Str :=
  match rfindChar '.' b with
  | some i => if (b.take i).any (fun c => c ≠ '.') then b.take i else b
  | none => b

/-- `os.path.join(a, b)` for exactly two POSIX components, as used in
`entities.extract_wikilinks`: an absolute `b` discards `a`. -/
def pathJoin (a b : Str) : Str :=
  match b with
  | '/' :: _ => b
  | _ => if a = [] then b
         else if a.getLast? = some '/' then a ++ b
         else a ++ '/' :: b

/-- Python `content.split('\n')`: always returns at least one piece. -/
def splitLines : Str → List Str
  | [] => [[]]
  | c :: cs =>
    if c = '\n' then [] :: splitLines cs
    else
      match splitLines cs with
      | l :: ls => (c :: l) :: ls
      | [] => [[c]]

/-- Join lines with `'\n'` (inverse of `splitLines` on newline-free lines). -/
def joinLines : List Str → Str
  | [] => []
  | [l] => l
  | l :: ls => l ++ '\n' :: joinLines ls

/-- Word characters of the mention/hashtag regexes: `[a-zA-Z0-9_-]`. -/
def isWordChar (c : Char) : Bool :=
  c.isAlpha || c.isDigit || c = '_' || c = '-'

/-! ## Regex scanners

Faithful executable models of `re.finditer` over the three patterns of
`entities.py`: non-overlapping matches found left to right; greedy
character classes (which here never admit useful backtracking because the
classes exclude the delimiters that follow them). -/

/-- After the capture group of `WIKILINK_PATTERN` has consumed the maximal
run of non-`]`/non-`|` characters, finish the match: either `]]` at once, or
the optional `(?:\|[^\]]+)?` alias part followed by `]]`. -/
def wikiAfterTarget (t rest1 : Str) : Option (Str × Str) :=
  match rest1 with
  | ']' :: ']' :: rest2 => some (t, rest2)
  | '|' :: rest2 =>
    let y := rest2.takeWhile (fun c => c ≠ ']')
    let rest3 := rest2.dropWhile (fun c => c ≠ ']')
    if y = [] then none
    else
      match rest3 with
      | ']' :: ']' :: rest4 => some (t, rest4)
      | _ => none
  | _ => none

/-- Attempt to match `WIKILINK_PATTERN = \[\[([^\]|]+)(?:\|[^\]]+)?\]\]` at
the head of `cs`; on success return the captured target and the remainder
of the input after the match. -/
def wikiMatchAt (cs : Str) : Option (Str × Str) :=
  match cs with
  | '[' :: '[' :: rest =>
    let t := rest.takeWhile (fun c => c ≠ ']' && c ≠ '|')
    if t = [] then none
    else wikiAfterTarget t (rest.dropWhile (fun c => c ≠ ']' && c ≠ '|'))
  | _ => none

/-- Worker for `findWiki`; the scan consumes at least one character per
step, so `fuel ≥ cs.length` makes the fuel bound irrelevant.  Structural
recursion on the fuel keeps the function kernel-reducible. -/
def findWikiAux : Nat → Str → List Str
  | 0, _ => []
  | _ + 1, [] => []
  | fuel + 1, c :: cs2 =>
    match wikiMatchAt (c :: cs2) with
    | some (t, rest) => t :: findWikiAux fuel rest
    | none => findWikiAux fuel cs2

/-- All wikilink targets in a line, in order of occurrence
(`WIKILINK_PATTERN.finditer`). -/
def findWiki (cs : Str) : List Str := findWikiAux cs.length cs

/-- Does `rest` start like the continuation of an email address?
`rest_of_line.startswith(('@', '.com', '.co', '.org', '.io', '.nl', '.uk'))`
from `extract_mentions`. -/
def emailish (rest : Str) : Bool :=
  "@".toList.isPrefixOf rest || ".com".toList.isPrefixOf rest ||
  ".co".toList.isPrefixOf rest || ".org".toList.isPrefixOf rest ||
  ".io".toList.isPrefixOf rest || ".nl".toList.isPrefixOf rest ||
  ".uk".toList.isPrefixOf rest

/-- Worker for `findMentions` (fuel ≥ input length suffices). -/
def findMentionsAux : Nat → Str → List Str
  | 0, _ => []
  | fuel + 1, cs =>
    match cs with
    | '@' :: c :: rest2 =>
      if c.isAlpha then
        let w := rest2.takeWhile isWordChar
        let r := rest2.dropWhile isWordChar
        if emailish r then findMentionsAux fuel r
        else (c :: w) :: findMentionsAux fuel r
      else findMentionsAux fuel (c :: rest2)
    | _ :: rest => findMentionsAux fuel rest
    | [] => []

/-- All accepted `@mention` names in a line, in order:
`MENTION_PATTERN = @([a-zA-Z][a-zA-Z0-9_-]*)` with the email heuristic. -/
def findMentions (cs : Str) : List Str := findMentionsAux cs.length cs

/-- `EXCLUDED_HASHTAGS = {'gid', 'browse', 'edit', 'resource'}`. -/
def EXCLUDED_HASHTAGS : List Str :=
  ["gid".toList, "browse".toList, "edit".toList, "resource".toList]

/-- Worker for `findHashtags` (fuel ≥ input length suffices). -/
def findHashtagsAux : Nat → Option Char → Str → List Str
  | 0, _, _ => []
  | fuel + 1, prev, cs =>
    match cs with
    | '#' :: d :: rest2 =>
      if prev ≠ some '/' ∧ prev ≠ some '=' then
        if d.isAlpha then
          let w := rest2.takeWhile isWordChar
          let r := rest2.dropWhile isWordChar
          let tag := d :: w
          let nextPrev := some ((d :: w).getLast (by simp))
          if tag ∈ EXCLUDED_HASHTAGS then findHashtagsAux fuel nextPrev r
          else tag :: findHashtagsAux fuel nextPrev r
        else findHashtagsAux fuel (some '#') (d :: rest2)
      else findHashtagsAux fuel (some '#') (d :: rest2)
    | c :: rest => findHashtagsAux fuel (some c) rest
    | [] => []

/-- All accepted `#hashtag` names in a line, in order:
`HASHTAG_PATTERN = (?<![/=])#([a-zA-Z][a-zA-Z0-9_-]*)`, dropping stoplisted
names.  `prev` is the character immediately before the current scan position
(the regex lookbehind). -/
def findHashtags (prev : Option Char) (cs : Str) : List Str :=
  findHashtagsAux cs.length prev cs

/-! ## Entity records and extraction (`entities.py`) -/

/-- A wikilink record `{target, target_path, line_number}`. -/
structure WikilinkRec where
  target : Str
  target_path : Str
  line_number : Int
deriving DecidableEq, Repr

/-- A `{name, line_number}` record (mentions and hashtags). -/
structure NameRec where
  name : Str
  line_number : Int
deriving DecidableEq, Repr

/-- `entities.extract_wikilinks(line, line_num, notes_root)`. -/
def extract_wikilinks (line : Str) (line_num : Int) (notes_root : Str) :
    List WikilinkRec :=
  (findWiki line).map (fun t =>
    { target := t
      target_path := pathJoin notes_root (t ++ ".md".toList)
      line_number := line_num })

/-- `entities.extract_mentions(line, line_num)`. -/
def extract_mentions (line : Str) (line_num : Int) : List NameRec :=
  (findMentions line).map (fun n => { name := n, line_number := line_num })

/-- `entities.extract_hashtags(line, line_num)`.  The scan of a fresh line
starts with no preceding character, so the lookbehind cannot fire at
position 0. -/
def extract_hashtags (line : Str) (line_num : Int) : List NameRec :=
  (findHashtags none line).map (fun n => { name := n, line_number := line_num })

/-- `re.sub(r'^#+ ', '', title)`: drop a leading run of `#` and the single
following space, when that pattern is present. -/
def stripHeading (l : Str) : Str :=
  let hs := l.takeWhile (fun c => c = '#')
  if hs ≠ [] ∧ (l.drop hs.length).head? = some ' ' then l.drop (hs.length + 1)
  else l

/-- The record returned by `entities.extract_from_file`. -/
structure NoteRec where
  path : Str
  title : Str
  content : Str
  wikilinks : List WikilinkRec
  mentions : List NameRec
  hashtags : List NameRec
deriving DecidableEq, Repr

/-- Number a list of lines starting at `n` (Python `enumerate(lines, 1)`
with `n = 1`). -/
def numberFrom (n : Int) : List α → List (Int × α)
  | [] => []
  | l :: ls => (n, l) :: numberFrom (n + 1) ls

/-- `entities.extract_from_file(filepath, notes_root)`.  Reading the file is
an external effect: `readResult = none` models an unreadable file (the
`except` branch), `some content` a successful read.  The per-line loop that
extends the three lists is rendered as three flat traversals of the same
numbered line list. -/
def extract_from_file (filepath notes_root : Str) (readResult : Option Str) :
    NoteRec :=
  match readResult with
  | none =>
    { path := filepath, title := pStem filepath, content := []
      wikilinks := [], mentions := [], hashtags := [] }
  | some content =>
    let lines := splitLines content
    let title0 := match lines with
      | [] => pStem filepath   -- dead branch: `splitLines` never returns `[]`
      | l :: _ => l
    let title := stripHeading title0
    let numbered := numberFrom 1 lines
    { path := filepath
      title := title
      content := content
      wikilinks := numbered.flatMap (fun p => extract_wikilinks p.2 p.1 notes_root)
      mentions := numbered.flatMap (fun p => extract_mentions p.2 p.1)
      hashtags := numbered.flatMap (fun p => extract_hashtags p.2 p.1) }

/-! ## The property-graph model

Nodes are keyed the way the Cypher templates key them (`Note.path`,
`Person.name`, `Tag.name`); an edge is stored as its endpoint keys plus the
`line_number` property, which together form the `MERGE` identity of the
relationship.  In a real property graph an edge can only be incident to
existing nodes, so deleting all edges whose endpoint key is `p` is exactly
what `DETACH DELETE` on the node keyed `p` does. -/

/-- A `Note` node.  Attributes other than the key are absent on stub nodes
(created by `MERGE (target:Note {path: ...})` with no `SET`). -/
structure Note where
  path : Str
  title : Option Str := none
  filename : Option Str := none
  content_hash : Option Str := none
  last_modified : Option Str := none
deriving DecidableEq, Repr

/-- A `Person` node. -/
structure Person where
  name : Str
  display_name : Option Str := none
deriving DecidableEq, Repr

/-- A relationship carrying a `line_number` property; `src`/`dst` are the
endpoint keys (note path, person name or tag name depending on the list the
edge lives in). -/
structure Edge where
  src : Str
  dst : Str
  line : Int
deriving DecidableEq, Repr

/-- The graph state.  `tags` holds tag names (a `Tag` node has only `name`);
`hasNoteE` holds `(person name, note path)` pairs (`HAS_NOTE` has no
`line_number`). -/
structure Graph where
  notes : List Note
  persons : List Person
  tags : List Str
  linksTo : List Edge
  mentionsE : List Edge
  hasTagE : List Edge
  hasNoteE : List (Str × Str)
deriving DecidableEq, Repr

def emptyGraph : Graph :=
  { notes := [], persons := [], tags := [], linksTo := [], mentionsE := [],
    hasTagE := [], hasNoteE := [] }

/-- External effects: `datetime.now().isoformat()` and
`hashlib.md5(content).hexdigest()`. -/
structure Env where
  now : Str
  md5hex : Str → Str

/-- `MERGE (n:Note {path: p})` with no `SET`: create a stub iff absent. -/
def mergeNoteStub (ns : List Note) (p : Str) : List Note :=
  if ns.any (fun n => n.path = p) then ns else ns ++ [{ path := p }]

/-- `MERGE (n:Note {path: p}) SET n.title = ..., n.filename = ...,
n.content_hash = ..., n.last_modified = ...`. -/
def upsertNote (ns : List Note) (p t f h m : Str) : List Note :=
  if ns.any (fun n => n.path = p) then
    ns.map (fun n => if n.path = p then
      { n with title := some t, filename := some f, content_hash := some h,
               last_modified := some m } else n)
  else
    ns ++ [{ path := p, title := some t, filename := some f,
             content_hash := some h, last_modified := some m }]

/-- `MERGE (person:Person {name: q})` with no `SET`. -/
def mergePerson (ps : List Person) (q : Str) : List Person :=
  if ps.any (fun x => x.name = q) then ps else ps ++ [{ name := q }]

/-- `MERGE (person:Person {name: q}) SET person.display_name = q`. -/
def upsertPersonDisplay (ps : List Person) (q : Str) : List Person :=
  if ps.any (fun x => x.name = q) then
    ps.map (fun x => if x.name = q then { x with display_name := some q } else x)
  else ps ++ [{ name := q, display_name := some q }]

/-- `MERGE (tag:Tag {name: q})`. -/
def mergeTag (ts : List Str) (q : Str) : List Str :=
  if q ∈ ts then ts else ts ++ [q]

/-- `MERGE` of a relationship: create iff no edge with the same endpoints
and `line_number` exists. -/
def mergeEdge (es : List Edge) (e : Edge) : List Edge :=
  if e ∈ es then es else es ++ [e]

/-- `MERGE` of a `HAS_NOTE` relationship. -/
def mergePair (es : List (Str × Str)) (e : Str × Str) : List (Str × Str) :=
  if e ∈ es then es else es ++ [e]

/-! ## Bridge graph mutations (`bridge.py`)

Each loop iteration of `update_note` issues one Cypher statement; a loop is
embedded as a `foldl` over the record list transforming the graph. -/

/-- The wikilink loop of `MemgraphBridge.update_note` (lines 154–167): for
each record with a truthy `target_path`, `MERGE` the target stub and the
`LINKS_TO` edge.  (`link.get("target_path")` is falsy exactly when the
field is missing or empty, modelled by `[]`.) -/
def bridgeWikiStep (p : Str) (g : Graph) (l : WikilinkRec) : Graph :=
  if l.target_path ≠ [] then
    { g with notes := mergeNoteStub g.notes l.target_path,
             linksTo := mergeEdge g.linksTo
               { src := p, dst := l.target_path, line := l.line_number } }
  else g

def bridgeWikiLoop (p : Str) (ws : List WikilinkRec) (g : Graph) : Graph :=
  ws.foldl (bridgeWikiStep p) g

/-- The mention loop of `MemgraphBridge.update_note` (lines 169–182). -/
def bridgeMentionStep (p : Str) (g : Graph) (m : NameRec) : Graph :=
  if m.name ≠ [] then
    { g with persons := mergePerson g.persons m.name,
             mentionsE := mergeEdge g.mentionsE
               { src := p, dst := m.name, line := m.line_number } }
  else g

def bridgeMentionLoop (p : Str) (ms : List NameRec) (g : Graph) : Graph :=
  ms.foldl (bridgeMentionStep p) g

/-- The hashtag loop of `MemgraphBridge.update_note` (lines 184–197). -/
def bridgeHashtagStep (p : Str) (g : Graph) (t : NameRec) : Graph :=
  if t.name ≠ [] then
    { g with tags := mergeTag g.tags t.name,
             hasTagE := mergeEdge g.hasTagE
               { src := p, dst := t.name, line := t.line_number } }
  else g

def bridgeHashtagLoop (p : Str) (hs : List NameRec) (g : Graph) : Graph :=
  hs.foldl (bridgeHashtagStep p) g

/-- The people-directory step of `MemgraphBridge.update_note`
(lines 199–212): when `"/people/" in path`, upsert the `Person` keyed by the
filename stem and `MERGE` a `HAS_NOTE` edge to this note. -/
def bridgePeopleStep (p filename : Str) (g : Graph) : Graph :=
  if containsSub "/people/".toList p then
    let person_name := splitextRoot filename
    { g with persons := upsertPersonDisplay g.persons person_name,
             hasNoteE := mergePair g.hasNoteE (person_name, p) }
  else g

/-- The response payload of a successful `update_note`. -/
structure UpdateResp where
  path : Str
  wikilinks_count : Nat
  mentions_count : Nat
  hashtags_count : Nat
deriving DecidableEq, Repr

/-- `MemgraphBridge.update_note` (bridge.py lines 119–224), successful run
on a live connection: upsert the note, delete all of its outgoing
`LINKS_TO`/`MENTIONS`/`HAS_TAG` relationships, then rebuild them from the
supplied records and handle the people directory. -/
def update_note (env : Env) (g : Graph) (path title content : Str)
    (wikilinks : List WikilinkRec) (mentions : List NameRec)
    (hashtags : List NameRec) : Graph × UpdateResp :=
  let filename := basename path
  let content_hash := env.md5hex content
  let last_modified := env.now
  let g1 := { g with notes := upsertNote g.notes path title filename
                              content_hash last_modified }
  let g2 := { g1 with
    linksTo := g1.linksTo.filter (fun e => e.src ≠ path),
    mentionsE := g1.mentionsE.filter (fun e => e.src ≠ path),
    hasTagE := g1.hasTagE.filter (fun e => e.src ≠ path) }
  let g3 := bridgeWikiLoop path wikilinks g2
  let g4 := bridgeMentionLoop path mentions g3
  let g5 := bridgeHashtagLoop path hashtags g4
  let g6 := bridgePeopleStep path filename g5
  (g6, { path := path, wikilinks_count := wikilinks.length,
         mentions_count := mentions.length, hashtags_count := hashtags.length })

/-- `MemgraphBridge._update_note_internal` (bridge.py lines 341–420): same
as `update_note` but without the relationship pre-delete (used from
`reindex` right after the graph was cleared) and without a response. -/
def update_note_internal (env : Env) (g : Graph) (path title content : Str)
    (wikilinks : List WikilinkRec) (mentions : List NameRec)
    (hashtags : List NameRec) : Graph :=
  let filename := basename path
  let content_hash := env.md5hex content
  let last_modified := env.now
  let g1 := { g with notes := upsertNote g.notes path title filename
                              content_hash last_modified }
  let g2 := bridgeWikiLoop path wikilinks g1
  let g3 := bridgeMentionLoop path mentions g2
  let g4 := bridgeHashtagLoop path hashtags g3
  bridgePeopleStep path filename g4

/-- `MemgraphBridge.delete_note` (bridge.py lines 226–259): `DETACH DELETE`
the note keyed `path`, then sweep orphaned tags and persons.  The returned
string is the `{"deleted": path}` payload. -/
def delete_note (g : Graph) (path : Str) : Graph × Str :=
  let g1 : Graph :=
    { notes := g.notes.filter (fun n => n.path ≠ path),
      persons := g.persons,
      tags := g.tags,
      linksTo := g.linksTo.filter (fun e => e.src ≠ path ∧ e.dst ≠ path),
      mentionsE := g.mentionsE.filter (fun e => e.src ≠ path),
      hasTagE := g.hasTagE.filter (fun e => e.src ≠ path),
      hasNoteE := g.hasNoteE.filter (fun e => e.2 ≠ path) }
  let g2 := { g1 with
    tags := g1.tags.filter (fun t => g1.hasTagE.any (fun e => e.dst = t)) }
  let g3 := { g2 with
    persons := g2.persons.filter (fun q =>
      g2.mentionsE.any (fun e => e.dst = q.name) ||
      g2.hasNoteE.any (fun e => e.1 = q.name)) }
  (g3, path)

/-- Failure oracle for the six statistics count queries: a `true` field
means the database errored on that count query. -/
structure StatsOracle where
  notes : Bool
  persons : Bool
  tags : Bool
  links : Bool
  mentions : Bool
  tag_usages : Bool
deriving DecidableEq, Repr

/-- The six graph statistics. -/
structure Stats where
  notes : Nat
  persons : Nat
  tags : Nat
  links : Nat
  mentions : Nat
  tag_usages : Nat
deriving DecidableEq, Repr

def countNotes (g : Graph) : Nat := g.notes.length

def countPersons (g : Graph) : Nat := g.persons.length

def countTags (g : Graph) : Nat := g.tags.length

def countLinks (g : Graph) : Nat := g.linksTo.length

def countMentions (g : Graph) : Nat := g.mentionsE.length

def countTagUsages (g : Graph) : Nat := g.hasTagE.length

/-- `MemgraphBridge.get_stats` (bridge.py lines 422–458): the six count
queries run sequentially inside a single `try`, so the first failing query
aborts the whole call with an error response (`none`). -/
def bridge_get_stats (g : Graph) (o : StatsOracle) : Option Stats :=
  if o.notes then none
  else if o.persons then none
  else if o.tags then none
  else if o.links then none
  else if o.mentions then none
  else if o.tag_usages then none
  else some
    { notes := countNotes g, persons := countPersons g, tags := countTags g,
      links := countLinks g, mentions := countMentions g,
      tag_usages := countTagUsages g }

/-! ## Server graph mutations (`server.py`)

`MemgraphNotesServer._index_note` duplicates the bridge's per-note sync
logic; it is transcribed here independently of the bridge functions so that
the two embeddings can be compared (claim C7). -/

/-- The wikilink loop of `MemgraphNotesServer._index_note`
(server.py lines 332–345). -/
def serverWikiStep (p : Str) (g : Graph) (l : WikilinkRec) : Graph :=
  if l.target_path ≠ [] then
    { g with notes := mergeNoteStub g.notes l.target_path,
             linksTo := mergeEdge g.linksTo
               { src := p, dst := l.target_path, line := l.line_number } }
  else g

def serverWikiLoop (p : Str) (ws : List WikilinkRec) (g : Graph) : Graph :=
  ws.foldl (serverWikiStep p) g

/-- The mention loop of `MemgraphNotesServer._index_note`
(server.py lines 347–360). -/
def serverMentionStep (p : Str) (g : Graph) (m : NameRec) : Graph :=
  if m.name ≠ [] then
    { g with persons := mergePerson g.persons m.name,
             mentionsE := mergeEdge g.mentionsE
               { src := p, dst := m.name, line := m.line_number } }
  else g

def serverMentionLoop (p : Str) (ms : List NameRec) (g : Graph) : Graph :=
  ms.foldl (serverMentionStep p) g

/-- The hashtag loop of `MemgraphNotesServer._index_note`
(server.py lines 362–375). -/
def serverHashtagStep (p : Str) (g : Graph) (t : NameRec) : Graph :=
  if t.name ≠ [] then
    { g with tags := mergeTag g.tags t.name,
             hasTagE := mergeEdge g.hasTagE
               { src := p, dst := t.name, line := t.line_number } }
  else g

def serverHashtagLoop (p : Str) (hs : List NameRec) (g : Graph) : Graph :=
  hs.foldl (serverHashtagStep p) g

/-- The people-directory step of `MemgraphNotesServer._index_note`
(server.py lines 377–389). -/
def serverPeopleStep (p filename : Str) (g : Graph) : Graph :=
  if containsSub "/people/".toList p then
    let person_name := splitextRoot filename
    { g with persons := upsertPersonDisplay g.persons person_name,
             hasNoteE := mergePair g.hasNoteE (person_name, p) }
  else g

/-- `MemgraphNotesServer._index_note(note)` (server.py lines 301–389),
successful run: upsert the note node from the extracted record, then create
wikilink/mention/hashtag relationships and handle the people directory.  No
relationship pre-delete (reindex clears the graph first). -/
def serverIndexNote (env : Env) (g : Graph) (note : NoteRec) : Graph :=
  let path := note.path
  let filename := basename path
  let content_hash := env.md5hex note.content
  let last_modified := env.now
  let g1 := { g with notes := upsertNote g.notes path note.title filename
                              content_hash last_modified }
  let g2 := serverWikiLoop path note.wikilinks g1
  let g3 := serverMentionLoop path note.mentions g2
  let g4 := serverHashtagLoop path note.hashtags g3
  serverPeopleStep path filename g4

/-! ### Reindex with per-statement failure injection (claim C3)

`_index_note` issues its Cypher statements one at a time through
`self.query`; any of them can raise (for example on a dropped database
connection).  The list of statements a note issues, in execution order, is
made explicit so that a failure can be injected before the k-th statement:
the statements already executed keep their effects (there is no enclosing
transaction), the rest never run, and the exception propagates to
`reindex_all_notes`'s per-file `except`. -/

/-- The graph mutations `_index_note` performs, in order: the note upsert,
one statement per truthy wikilink/mention/hashtag record, and possibly the
people-directory statement. -/
def indexNoteQueries (env : Env) (note : NoteRec) : List (Graph → Graph) :=
  let path := note.path
  let filename := basename path
  [fun g => { g with notes := upsertNote g.notes path note.title filename
                              (env.md5hex note.content) env.now }]
  ++ note.wikilinks.filterMap (fun l =>
      if l.target_path ≠ [] then some (fun g => serverWikiStep path g l)
      else none)
  ++ note.mentions.filterMap (fun m =>
      if m.name ≠ [] then some (fun g => serverMentionStep path g m)
      else none)
  ++ note.hashtags.filterMap (fun t =>
      if t.name ≠ [] then some (fun g => serverHashtagStep path g t)
      else none)
  ++ (if containsSub "/people/".toList path then
        [fun g =>
          { g with persons := upsertPersonDisplay g.persons (splitextRoot filename),
                   hasNoteE := mergePair g.hasNoteE (splitextRoot filename, path) }]
      else [])

/-- Run a statement list against the graph with a failure budget: `none`
never fails; `some k` raises an exception before the (k+1)-th remaining
statement.  Returns the final graph, the remaining budget and whether the
run completed without an exception. -/
def runQueries : List (Graph → Graph) → Option Nat → Graph → Graph × Option Nat × Bool
  | [], fuel, g => (g, fuel, true)
  | q :: rest, none, g => runQueries rest none (q g)
  | _ :: _, some 0, g => (g, some 0, false)
  | q :: rest, some (k + 1), g => runQueries rest (some k) (q g)

/-- `_index_note` under the failure model. -/
def indexNoteF (env : Env) (note : NoteRec) (fuel : Option Nat) (g : Graph) :
    Graph × Option Nat × Bool :=
  runQueries (indexNoteQueries env note) fuel g

/-- One input file for `reindex_all_notes`: its path, its read result
(`none` = unreadable) and the database-failure budget for its indexing. -/
structure ReindexFile where
  path : Str
  readResult : Option Str
  fuel : Option Nat

/-- The dictionary `reindex_all_notes` returns.  Each failed file
contributes one `{path, error}` record; the (externally produced) exception
message is not modelled, so an error record is represented by its path. -/
structure ReindexResult where
  indexed : Nat
  total : Nat
  errors : List Str
deriving DecidableEq, Repr

/-- Whether indexing of `f` raises: the budget runs out strictly inside its
statement list.  (`runQueries` is graph-independent in this respect.) -/
def noteFails (env : Env) (root : Str) (f : ReindexFile) : Bool :=
  match f.fuel with
  | none => false
  | some k =>
    k < (indexNoteQueries env (extract_from_file f.path root f.readResult)).length

/-- The per-file loop body of `reindex_all_notes` (server.py lines 287–293):
extract, index, count or record the error — one bad file never aborts the
batch. -/
def reindexStep (env : Env) (root : Str) (acc : Graph × Nat × List Str)
    (f : ReindexFile) : Graph × Nat × List Str :=
  let note := extract_from_file f.path root f.readResult
  let r := indexNoteF env note f.fuel acc.1
  if r.2.2 then (r.1, acc.2.1 + 1, acc.2.2)
  else (r.1, acc.2.1, acc.2.2 ++ [f.path])

/-- `MemgraphNotesServer.reindex_all_notes` (server.py lines 262–299):
clear the graph (`MATCH (n) DETACH DELETE n`), recreate the schema indexes
(no effect on data; "already exists" errors are swallowed), then index
every file, collecting per-file errors. -/
def reindex_all_notes (env : Env) (root : Str) (files : List ReindexFile)
    (_g : Graph) : Graph × ReindexResult :=
  let cleared := emptyGraph
  let r := files.foldl (reindexStep env root) (cleared, 0, [])
  (r.1, { indexed := r.2.1, total := files.length, errors := r.2.2 })

/-- The note paths present in a graph. -/
def notePaths (g : Graph) : List Str := g.notes.map (fun n => n.path)

/-- `MemgraphNotesServer.get_graph_stats` (server.py lines 223–243): each of
the six count queries runs in its own `try/except`; a failing query
contributes `0` for its key and the loop carries on, so the call as a whole
always returns a stats dictionary. -/
def get_graph_stats (g : Graph) (o : StatsOracle) : Stats :=
  { notes := if o.notes then 0 else countNotes g
    tags := if o.tags then 0 else countTags g
    persons := if o.persons then 0 else countPersons g
    links := if o.links then 0 else countLinks g
    mentions := if o.mentions then 0 else countMentions g
    tag_usages := if o.tag_usages then 0 else countTagUsages g }

/-! ## Query facade (`server.py`) -/

/-- One result row of `find_by_tag` / `find_by_mention`:
`note.path, note.title, r.line_number`. -/
structure Row where
  path : Str
  title : Option Str
  line : Int
deriving DecidableEq, Repr

/-- Lexicographic string comparison (the database's `ORDER BY` on string
properties). -/
def strLe : Str → Str → Bool
  | [], _ => true
  | _ :: _, [] => false
  | a :: as, b :: bs => if a = b then strLe as bs else decide (a < b)

/-- `ORDER BY` over a nullable string property; `null` sorts first. -/
def optStrLe : Option Str → Option Str → Bool
  | none, _ => true
  | some _, none => false
  | some a, some b => strLe a b

/-- Row comparison used by `ORDER BY note.title`. -/
def rowLe (r1 r2 : Row) : Bool := optStrLe r1.title r2.title

/-- The unordered row multiset of
`MATCH (note:Note)-[r:HAS_TAG]->(t:Tag {name: key}) RETURN ...`:
one row per (tag node, edge, note node) combination that matches. -/
def tagMatchRows (g : Graph) (key : Str) : List Row :=
  (g.tags.filter (fun t => t = key)).flatMap (fun _ =>
    (g.hasTagE.filter (fun e => e.dst = key)).flatMap (fun e =>
      (g.notes.filter (fun n => n.path = e.src)).map (fun n =>
        { path := n.path, title := n.title, line := e.line })))

/-- `MemgraphNotesServer.find_by_tag` (server.py lines 180–189):
`tag.lstrip("#")` removes every leading `#`, then the exact-match query
runs with `ORDER BY note.title`. -/
def find_by_tag (g : Graph) (tag : Str) : List Row :=
  let key := tag.dropWhile (fun c => c = '#')
  (tagMatchRows g key).mergeSort rowLe

/-- The unordered row multiset of
`MATCH (note:Note)-[r:MENTIONS]->(p:Person {name: key}) RETURN ...`. -/
def personMatchRows (g : Graph) (key : Str) : List Row :=
  (g.persons.filter (fun q => q.name = key)).flatMap (fun _ =>
    (g.mentionsE.filter (fun e => e.dst = key)).flatMap (fun e =>
      (g.notes.filter (fun n => n.path = e.src)).map (fun n =>
        { path := n.path, title := n.title, line := e.line })))

/-- `MemgraphNotesServer.find_by_mention` (server.py lines 191–200):
`person.lstrip("@")` then exact-match lookup ordered by note title. -/
def find_by_mention (g : Graph) (person : Str) : List Row :=
  let key := person.dropWhile (fun c => c = '@')
  (personMatchRows g key).mergeSort rowLe

/-- An `{path, title}` map built by `collect(DISTINCT {path: ..., title:
...})`; the fields are `null` when the `OPTIONAL MATCH` found nothing. -/
structure LinkRec where
  path : Option Str
  title : Option Str
deriving DecidableEq, Repr

/-- The dictionary `get_note_context` returns for an existing note. -/
structure NoteCtx where
  title : Option Str
  path : Str
  outgoing_links : List LinkRec
  tags : List (Option Str)
  mentions : List (Option Str)
  backlinks : List LinkRec
deriving DecidableEq, Repr

/-- `collect(DISTINCT {path: x.path, title: x.title})` over an `OPTIONAL
MATCH`: when no row matched, every joined row carries `x = null` and the
collected map is `{path: null, title: null}` — a non-null value, so it is
collected. -/
def collectDistinctMaps (l : List LinkRec) : List LinkRec :=
  if l = [] then [{ path := none, title := none }] else l.dedup

/-- `collect(DISTINCT x.name)` over an `OPTIONAL MATCH`: `collect` skips
`null` inputs, so an empty match list collects to `[]`. -/
def collectDistinctVals (l : List Str) : List (Option Str) :=
  (l.map some).dedup

/-- Python truthiness of a nullable string (`if t`, `if l.get("path")`):
false for `null` and for the empty string. -/
def truthyOptStr : Option Str → Bool
  | none => false
  | some s => s ≠ []

/-- `MemgraphNotesServer.get_note_context` (server.py lines 137–165).
`none` models the `{"error": "Note not found"}` result.  The four list
comprehensions filter out falsy names and records without a truthy path. -/
def get_note_context (g : Graph) (p : Str) : Option NoteCtx :=
  match g.notes.find? (fun n => n.path = p) with
  | none => none
  | some n =>
    let linked := (g.linksTo.filter (fun e => e.src = p)).flatMap (fun e =>
      (g.notes.filter (fun m => m.path = e.dst)).map (fun m =>
        ({ path := some m.path, title := m.title } : LinkRec)))
    let tagNames := (g.hasTagE.filter (fun e => e.src = p)).flatMap (fun e =>
      g.tags.filter (fun t => t = e.dst))
    let personNames := (g.mentionsE.filter (fun e => e.src = p)).flatMap (fun e =>
      (g.persons.filter (fun q => q.name = e.dst)).map (fun q => q.name))
    let back := (g.linksTo.filter (fun e => e.dst = p)).flatMap (fun e =>
      (g.notes.filter (fun m => m.path = e.src)).map (fun m =>
        ({ path := some m.path, title := m.title } : LinkRec)))
    some
      { title := n.title
        path := n.path
        outgoing_links :=
          (collectDistinctMaps linked).filter (fun l => truthyOptStr l.path)
        tags := (collectDistinctVals tagNames).filter truthyOptStr
        mentions := (collectDistinctVals personNames).filter truthyOptStr
        backlinks :=
          (collectDistinctMaps back).filter (fun l => truthyOptStr l.path) }

/-! ## Lemmas: the edge lists produced by a sync

The three relationship-building loops all have the same shape: fold the
record list, `MERGE`-ing one edge (with source `p`) per truthy record. -/

/-- The edge a wikilink record contributes, if any. -/
def wikiMk (p : Str) (l : WikilinkRec) : Option Edge :=
  if l.target_path ≠ [] then
    some { src := p, dst := l.target_path, line := l.line_number }
  else none

/-- The edge a mention/hashtag record contributes, if any. -/
def nameMk (p : Str) (m : NameRec) : Option Edge :=
  if m.name ≠ [] then
    some { src := p, dst := m.name, line := m.line_number }
  else none

/-- Fold `MERGE`s of the edges contributed by a record list into an
accumulator edge list. -/
def edgeFoldBy (mk : α → Option Edge) (rs : List α) (acc : List Edge) :
    List Edge :=
  rs.foldl (fun acc r => match mk r with
    | some e => mergeEdge acc e
    | none => acc) acc

/-- The edges a sync derives from a wikilink record list: one `LINKS_TO`
edge per distinct `(target_path, line_number)` with a non-empty target
path, in first-occurrence order (`MERGE` de-duplication). -/
def derivedLinkEdges (p : Str) (ws : List WikilinkRec) : List Edge :=
  edgeFoldBy (wikiMk p) ws []

/-- The edges a sync derives from a mention or hashtag record list. -/
def derivedNameEdges (p : Str) (ms : List NameRec) : List Edge :=
  edgeFoldBy (nameMk p) ms []

/-- A concrete environment for witness evaluations. -/
def c3env : Env := { now := [], md5hex := fun _ => [] }

/-- A file whose indexing succeeds (no injected failure). -/
def c3fileGood : ReindexFile :=
  { path := "/n/a.md".toList, readResult := some "hello".toList, fuel := none }

/-- A file whose indexing fails before its first statement. -/
def c3fileBad : ReindexFile :=
  { path := "/n/c.md".toList, readResult := some "x".toList, fuel := some 0 }

/-- A file whose indexing fails after its Note upsert (during the wikilink
statement). -/
def c3fileMid : ReindexFile :=
  { path := "/n/a.md".toList, readResult := some "[[b]]".toList, fuel := some 1 }

/-! ### Graph statistics (claim C8) -/

/-- A graph with one note, one person, one tag and one `HAS_TAG` edge. -/
def c8graph : Graph :=
  { notes := [{ path := "/n/a.md".toList }],
    persons := [{ name := "bob".toList }],
    tags := ["ops".toList],
    linksTo := [], mentionsE := [],
    hasTagE := [{ src := "/n/a.md".toList, dst := "ops".toList, line := 1 }],
    hasNoteE := [] }

/-- Only the `persons` count query fails. -/
def c8oracle : StatsOracle :=
  { notes := false, persons := true, tags := false, links := false,
    mentions := false, tag_usages := false }

/-- A graph whose single Tag node is named `#ops` (creatable through the
raw `query` action), carried by one note. -/
def c9graph : Graph :=
  { notes := [{ path := "/n/a.md".toList, title := some "A".toList }],
    persons := [], tags := ["#ops".toList], linksTo := [], mentionsE := [],
    hasTagE := [{ src := "/n/a.md".toList, dst := "#ops".toList, line := 2 }],
    hasNoteE := [] }

/-- A note with no relationships. -/
def c10graph : Graph :=
  { notes := [{ path := "/n/a.md".toList, title := some "A".toList }],
    persons := [], tags := [], linksTo := [], mentionsE := [], hasTagE := [],
    hasNoteE := [] }

/-- The context `get_note_context` returns for that note. -/
def c10ctx : NoteCtx :=
  { title := some "A".toList, path := "/n/a.md".toList, outgoing_links := [],
    tags := [], mentions := [], backlinks := [] }

/-! ### Wikilink extraction (claim C5)

A line is modelled as a sequence of chunks — plain text (holding no `[`)
interleaved with well-formed `[[target]]` / `[[target|alias]]` links — and
the scanner is shown to produce exactly one record per link chunk. -/

/-- A building block of a line. -/
inductive Chunk where
  | plain (s : Str)
  | link (target : Str) (disp : Option Str)
deriving DecidableEq, Repr

/-- Render a chunk back to text. -/
def renderChunk : Chunk → Str
  | .plain s => s
  | .link t none => '[' :: '[' :: (t ++ ']' :: ']' :: [])
  | .link t (some y) => '[' :: '[' :: (t ++ '|' :: (y ++ ']' :: ']' :: []))

/-- Render a line of chunks. -/
def renderLine : List Chunk → Str
  | [] => []
  | ch :: cs => renderChunk ch ++ renderLine cs

/-- Well-formedness: plain text has no `[` (and no newline); a link target
is non-empty and free of `]`, `|` and newlines; an alias is non-empty and
free of `]` and newlines. -/
def goodChunk : Chunk → Prop
  | .plain s => '[' ∉ s ∧ '\n' ∉ s
  | .link t none => t ≠ [] ∧ ∀ c ∈ t, c ≠ ']' ∧ c ≠ '|' ∧ c ≠ '\n'
  | .link t (some y) =>
      (t ≠ [] ∧ ∀ c ∈ t, c ≠ ']' ∧ c ≠ '|' ∧ c ≠ '\n') ∧
      (y ≠ [] ∧ ∀ c ∈ y, c ≠ ']' ∧ c ≠ '\n')

instance goodChunk.decidable : DecidablePred goodChunk := fun ch =>
  match ch with
  | .plain s => (inferInstance : Decidable ('[' ∉ s ∧ '\n' ∉ s))
  | .link t none =>
    (inferInstance : Decidable (t ≠ [] ∧ ∀ c ∈ t, c ≠ ']' ∧ c ≠ '|' ∧ c ≠ '\n'))
  | .link t (some y) =>
    (inferInstance : Decidable
      ((t ≠ [] ∧ ∀ c ∈ t, c ≠ ']' ∧ c ≠ '|' ∧ c ≠ '\n') ∧
       (y ≠ [] ∧ ∀ c ∈ y, c ≠ ']' ∧ c ≠ '\n')))

/-- The link targets of a chunk line, in order. -/
def targetsOf (cs : List Chunk) : List Str :=
  cs.filterMap (fun ch =>
    match ch with
    | .link t _ => some t
    | .plain _ => none)

/-- Concrete chunk lines: `"Meet [[project-plan]]"` on line 1 and
`"[[a|x]] and [[a]]"` on line 2. -/
def c5lines : List (List Chunk) :=
  [[.plain "Meet ".toList, .link "project-plan".toList none],
   [.link "a".toList (some "x".toList), .plain " and ".toList,
    .link "a".toList none]]

/-! ## Theorems -/

theorem wikiAfterTarget_length {t r1 t' rest : Str}
    (h : wikiAfterTarget t r1 = some (t', rest)) : rest.length < r1.length := by
  unfold wikiAfterTarget at h
  split at h
  · cases h
    simp only [List.length_cons]
    omega
  · rename_i rest2
    have hdw : (rest2.dropWhile (fun c => c ≠ ']')).length ≤ rest2.length :=
      (List.dropWhile_sublist _).length_le
    simp only at h
    split at h
    · exact absurd h (by simp)
    · split at h
      · rename_i rest4 heq
        cases h
        rw [heq] at hdw
        simp only [List.length_cons] at hdw ⊢
        omega
      · exact absurd h (by simp)
  · exact absurd h (by simp)

theorem wikiMatchAt_length {cs t rest : Str} (h : wikiMatchAt cs = some (t, rest)) :
    rest.length < cs.length := by
  unfold wikiMatchAt at h
  split at h
  · rename_i rest0
    simp only at h
    split at h
    · exact absurd h (by simp)
    · have hdw : (rest0.dropWhile (fun c => c ≠ ']' && c ≠ '|')).length ≤ rest0.length :=
        (List.dropWhile_sublist _).length_le
      have := wikiAfterTarget_length h
      simp only [List.length_cons]
      omega
  · exact absurd h (by simp)

theorem mem_mergeEdge {es : List Edge} {e a : Edge} :
    a ∈ mergeEdge es e ↔ a ∈ es ∨ a = e := by
  unfold mergeEdge
  split
  · rename_i h
    constructor
    · exact Or.inl
    · rintro (h1 | rfl)
      · exact h1
      · exact h
  · simp [List.mem_append]

theorem mergeEdge_append {K A : List Edge} {e : Edge} (h : e ∉ K) :
    mergeEdge (K ++ A) e = K ++ mergeEdge A e := by
  unfold mergeEdge
  by_cases hA : e ∈ A
  · simp [List.mem_append, h, hA]
  · simp [List.mem_append, h, hA, List.append_assoc]

theorem edgeFoldBy_cons_some {mk : α → Option Edge} {r : α} {e : Edge}
    {rs : List α} {A : List Edge} (h : mk r = some e) :
    edgeFoldBy mk (r :: rs) A = edgeFoldBy mk rs (mergeEdge A e) := by
  simp only [edgeFoldBy, List.foldl_cons, h]

theorem edgeFoldBy_cons_none {mk : α → Option Edge} {r : α}
    {rs : List α} {A : List Edge} (h : mk r = none) :
    edgeFoldBy mk (r :: rs) A = edgeFoldBy mk rs A := by
  simp only [edgeFoldBy, List.foldl_cons, h]

theorem edgeFoldBy_mem {mk : α → Option Edge} {rs : List α} {A : List Edge}
    {e : Edge} (h : e ∈ edgeFoldBy mk rs A) :
    e ∈ A ∨ ∃ r ∈ rs, mk r = some e := by
  induction rs generalizing A with
  | nil => exact Or.inl h
  | cons r rs ih =>
    match hmk : mk r with
    | none =>
      rw [edgeFoldBy_cons_none hmk] at h
      rcases ih h with h1 | ⟨r1, hr1, h1⟩
      · exact Or.inl h1
      · exact Or.inr ⟨r1, List.mem_cons_of_mem _ hr1, h1⟩
    | some e1 =>
      rw [edgeFoldBy_cons_some hmk] at h
      rcases ih h with h1 | ⟨r1, hr1, h1⟩
      · rcases mem_mergeEdge.mp h1 with h2 | rfl
        · exact Or.inl h2
        · exact Or.inr ⟨r, List.mem_cons_self .., hmk⟩
      · exact Or.inr ⟨r1, List.mem_cons_of_mem _ hr1, h1⟩

theorem edgeFoldBy_append {p : Str} {mk : α → Option Edge}
    (hmk : ∀ r e, mk r = some e → e.src = p) (rs : List α) :
    ∀ {K A : List Edge}, (∀ e ∈ K, e.src ≠ p) →
      edgeFoldBy mk rs (K ++ A) = K ++ edgeFoldBy mk rs A := by
  induction rs with
  | nil => intro K A _; rfl
  | cons r rs ih =>
    intro K A hK
    match hmkr : mk r with
    | none => rw [edgeFoldBy_cons_none hmkr, edgeFoldBy_cons_none hmkr]; exact ih hK
    | some e =>
      have hnotK : e ∉ K := fun hmem => hK e hmem (hmk r e hmkr)
      rw [edgeFoldBy_cons_some hmkr, edgeFoldBy_cons_some hmkr,
        mergeEdge_append hnotK]
      exact ih hK

theorem edgeFoldBy_split {p : Str} {mk : α → Option Edge}
    (hmk : ∀ r e, mk r = some e → e.src = p) (rs : List α)
    {K : List Edge} (hK : ∀ e ∈ K, e.src ≠ p) :
    edgeFoldBy mk rs K = K ++ edgeFoldBy mk rs [] := by
  have := edgeFoldBy_append hmk rs (K := K) (A := []) hK
  simpa using this

theorem wikiMk_src {p : Str} : ∀ (l : WikilinkRec) (e : Edge),
    wikiMk p l = some e → e.src = p := by
  intro l e h
  unfold wikiMk at h
  split at h
  · cases h; rfl
  · cases h

theorem nameMk_src {p : Str} : ∀ (m : NameRec) (e : Edge),
    nameMk p m = some e → e.src = p := by
  intro m e h
  unfold nameMk at h
  split at h
  · cases h; rfl
  · cases h

theorem derivedLinkEdges_src {p : Str} {ws : List WikilinkRec} {e : Edge}
    (h : e ∈ derivedLinkEdges p ws) : e.src = p := by
  rcases edgeFoldBy_mem h with h1 | ⟨r, _, hmk⟩
  · cases h1
  · exact wikiMk_src r e hmk

theorem derivedNameEdges_src {p : Str} {ms : List NameRec} {e : Edge}
    (h : e ∈ derivedNameEdges p ms) : e.src = p := by
  rcases edgeFoldBy_mem h with h1 | ⟨r, _, hmk⟩
  · cases h1
  · exact nameMk_src r e hmk

/-! ### Projections of the bridge loops -/

theorem bridgeWikiStep_linksTo (p : Str) (g : Graph) (l : WikilinkRec) :
    (bridgeWikiStep p g l).linksTo =
      match wikiMk p l with
      | some e => mergeEdge g.linksTo e
      | none => g.linksTo := by
  unfold bridgeWikiStep wikiMk
  split
  · rfl
  · rfl

theorem bridgeWikiLoop_linksTo (p : Str) (ws : List WikilinkRec) :
    ∀ g : Graph, (bridgeWikiLoop p ws g).linksTo =
      edgeFoldBy (wikiMk p) ws g.linksTo := by
  induction ws with
  | nil => intro g; rfl
  | cons l ws ih =>
    intro g
    show (bridgeWikiLoop p ws (bridgeWikiStep p g l)).linksTo = _
    rw [ih]
    match hmk : wikiMk p l with
    | some e =>
      rw [edgeFoldBy_cons_some hmk]
      have := bridgeWikiStep_linksTo p g l
      rw [hmk] at this
      rw [this]
    | none =>
      rw [edgeFoldBy_cons_none hmk]
      have := bridgeWikiStep_linksTo p g l
      rw [hmk] at this
      rw [this]

theorem bridgeWikiLoop_mentionsE (p : Str) (ws : List WikilinkRec) :
    ∀ g : Graph, (bridgeWikiLoop p ws g).mentionsE = g.mentionsE := by
  induction ws with
  | nil => intro g; rfl
  | cons l ws ih =>
    intro g
    show (bridgeWikiLoop p ws (bridgeWikiStep p g l)).mentionsE = _
    rw [ih]
    unfold bridgeWikiStep
    split <;> rfl

theorem bridgeWikiLoop_hasTagE (p : Str) (ws : List WikilinkRec) :
    ∀ g : Graph, (bridgeWikiLoop p ws g).hasTagE = g.hasTagE := by
  induction ws with
  | nil => intro g; rfl
  | cons l ws ih =>
    intro g
    show (bridgeWikiLoop p ws (bridgeWikiStep p g l)).hasTagE = _
    rw [ih]
    unfold bridgeWikiStep
    split <;> rfl

theorem bridgeMentionStep_mentionsE (p : Str) (g : Graph) (m : NameRec) :
    (bridgeMentionStep p g m).mentionsE =
      match nameMk p m with
      | some e => mergeEdge g.mentionsE e
      | none => g.mentionsE := by
  unfold bridgeMentionStep nameMk
  split
  · rfl
  · rfl

theorem bridgeMentionLoop_mentionsE (p : Str) (ms : List NameRec) :
    ∀ g : Graph, (bridgeMentionLoop p ms g).mentionsE =
      edgeFoldBy (nameMk p) ms g.mentionsE := by
  induction ms with
  | nil => intro g; rfl
  | cons m ms ih =>
    intro g
    show (bridgeMentionLoop p ms (bridgeMentionStep p g m)).mentionsE = _
    rw [ih]
    match hmk : nameMk p m with
    | some e =>
      rw [edgeFoldBy_cons_some hmk]
      have := bridgeMentionStep_mentionsE p g m
      rw [hmk] at this
      rw [this]
    | none =>
      rw [edgeFoldBy_cons_none hmk]
      have := bridgeMentionStep_mentionsE p g m
      rw [hmk] at this
      rw [this]

theorem bridgeMentionLoop_linksTo (p : Str) (ms : List NameRec) :
    ∀ g : Graph, (bridgeMentionLoop p ms g).linksTo = g.linksTo := by
  induction ms with
  | nil => intro g; rfl
  | cons m ms ih =>
    intro g
    show (bridgeMentionLoop p ms (bridgeMentionStep p g m)).linksTo = _
    rw [ih]
    unfold bridgeMentionStep
    split <;> rfl

theorem bridgeMentionLoop_hasTagE (p : Str) (ms : List NameRec) :
    ∀ g : Graph, (bridgeMentionLoop p ms g).hasTagE = g.hasTagE := by
  induction ms with
  | nil => intro g; rfl
  | cons m ms ih =>
    intro g
    show (bridgeMentionLoop p ms (bridgeMentionStep p g m)).hasTagE = _
    rw [ih]
    unfold bridgeMentionStep
    split <;> rfl

theorem bridgeHashtagStep_hasTagE (p : Str) (g : Graph) (t : NameRec) :
    (bridgeHashtagStep p g t).hasTagE =
      match nameMk p t with
      | some e => mergeEdge g.hasTagE e
      | none => g.hasTagE := by
  unfold bridgeHashtagStep nameMk
  split
  · rfl
  · rfl

theorem bridgeHashtagLoop_hasTagE (p : Str) (hs : List NameRec) :
    ∀ g : Graph, (bridgeHashtagLoop p hs g).hasTagE =
      edgeFoldBy (nameMk p) hs g.hasTagE := by
  induction hs with
  | nil => intro g; rfl
  | cons t hs ih =>
    intro g
    show (bridgeHashtagLoop p hs (bridgeHashtagStep p g t)).hasTagE = _
    rw [ih]
    match hmk : nameMk p t with
    | some e =>
      rw [edgeFoldBy_cons_some hmk]
      have := bridgeHashtagStep_hasTagE p g t
      rw [hmk] at this
      rw [this]
    | none =>
      rw [edgeFoldBy_cons_none hmk]
      have := bridgeHashtagStep_hasTagE p g t
      rw [hmk] at this
      rw [this]

theorem bridgeHashtagLoop_linksTo (p : Str) (hs : List NameRec) :
    ∀ g : Graph, (bridgeHashtagLoop p hs g).linksTo = g.linksTo := by
  induction hs with
  | nil => intro g; rfl
  | cons t hs ih =>
    intro g
    show (bridgeHashtagLoop p hs (bridgeHashtagStep p g t)).linksTo = _
    rw [ih]
    unfold bridgeHashtagStep
    split <;> rfl

theorem bridgeHashtagLoop_mentionsE (p : Str) (hs : List NameRec) :
    ∀ g : Graph, (bridgeHashtagLoop p hs g).mentionsE = g.mentionsE := by
  induction hs with
  | nil => intro g; rfl
  | cons t hs ih =>
    intro g
    show (bridgeHashtagLoop p hs (bridgeHashtagStep p g t)).mentionsE = _
    rw [ih]
    unfold bridgeHashtagStep
    split <;> rfl

theorem bridgePeopleStep_linksTo (p f : Str) (g : Graph) :
    (bridgePeopleStep p f g).linksTo = g.linksTo := by
  unfold bridgePeopleStep; split <;> rfl

theorem bridgePeopleStep_mentionsE (p f : Str) (g : Graph) :
    (bridgePeopleStep p f g).mentionsE = g.mentionsE := by
  unfold bridgePeopleStep; split <;> rfl

theorem bridgePeopleStep_hasTagE (p f : Str) (g : Graph) :
    (bridgePeopleStep p f g).hasTagE = g.hasTagE := by
  unfold bridgePeopleStep; split <;> rfl

/-- After a successful `update_note`, each of the three outgoing edge lists
is: the edges of other notes (untouched), followed by exactly the edges
derived from the supplied records. -/
theorem update_note_edges (env : Env) (g : Graph) (p t c : Str)
    (ws : List WikilinkRec) (ms hs : List NameRec) :
    ((update_note env g p t c ws ms hs).1).linksTo =
      g.linksTo.filter (fun e => e.src ≠ p) ++ derivedLinkEdges p ws ∧
    ((update_note env g p t c ws ms hs).1).mentionsE =
      g.mentionsE.filter (fun e => e.src ≠ p) ++ derivedNameEdges p ms ∧
    ((update_note env g p t c ws ms hs).1).hasTagE =
      g.hasTagE.filter (fun e => e.src ≠ p) ++ derivedNameEdges p hs := by
  have hK : ∀ L : List Edge, ∀ e ∈ L.filter (fun e => e.src ≠ p), e.src ≠ p := by
    intro L e he
    have := (List.mem_filter.mp he).2
    simpa using this
  refine ⟨?_, ?_, ?_⟩
  · show (bridgePeopleStep _ _ (bridgeHashtagLoop _ _ (bridgeMentionLoop _ _
      (bridgeWikiLoop _ _ _)))).linksTo = _
    rw [bridgePeopleStep_linksTo, bridgeHashtagLoop_linksTo,
      bridgeMentionLoop_linksTo, bridgeWikiLoop_linksTo]
    exact edgeFoldBy_split wikiMk_src ws (hK _)
  · show (bridgePeopleStep _ _ (bridgeHashtagLoop _ _ (bridgeMentionLoop _ _
      (bridgeWikiLoop _ _ _)))).mentionsE = _
    rw [bridgePeopleStep_mentionsE, bridgeHashtagLoop_mentionsE,
      bridgeMentionLoop_mentionsE, bridgeWikiLoop_mentionsE]
    exact edgeFoldBy_split nameMk_src ms (hK _)
  · show (bridgePeopleStep _ _ (bridgeHashtagLoop _ _ (bridgeMentionLoop _ _
      (bridgeWikiLoop _ _ _)))).hasTagE = _
    rw [bridgePeopleStep_hasTagE, bridgeHashtagLoop_hasTagE,
      bridgeMentionLoop_hasTagE, bridgeWikiLoop_hasTagE]
    exact edgeFoldBy_split nameMk_src hs (hK _)

theorem mem_filter_src_ne {p : Str} {L : List Edge} {e : Edge}
    (he : e ∈ L.filter (fun e => e.src ≠ p)) : e.src ≠ p := by
  have := (List.mem_filter.mp he).2
  simpa using this

theorem filter_src_eq_nil_of_ne {p : Str} {L : List Edge}
    (h : ∀ e ∈ L, e.src ≠ p) : L.filter (fun e => e.src = p) = [] := by
  rw [List.filter_eq_nil_iff]
  intro e he
  simp [h e he]

theorem filter_src_eq_self_of_eq {p : Str} {L : List Edge}
    (h : ∀ e ∈ L, e.src = p) : L.filter (fun e => e.src = p) = L := by
  rw [List.filter_eq_self]
  intro e he
  simp [h e he]

theorem filter_src_ne_nil_of_eq {p : Str} {L : List Edge}
    (h : ∀ e ∈ L, e.src = p) : L.filter (fun e => e.src ≠ p) = [] := by
  rw [List.filter_eq_nil_iff]
  intro e he
  simp [h e he]

theorem filter_src_ne_self_of_ne {p : Str} {L : List Edge}
    (h : ∀ e ∈ L, e.src ≠ p) : L.filter (fun e => e.src ≠ p) = L := by
  rw [List.filter_eq_self]
  intro e he
  simp [h e he]

/-- The outgoing edges of `p` after one successful `update_note` are exactly
those derived from the supplied records, whatever the starting graph. -/
theorem update_note_outgoing (env : Env) (g : Graph) (p t c : Str)
    (ws : List WikilinkRec) (ms hs : List NameRec) :
    ((update_note env g p t c ws ms hs).1).linksTo.filter (fun e => e.src = p) =
      derivedLinkEdges p ws ∧
    ((update_note env g p t c ws ms hs).1).mentionsE.filter (fun e => e.src = p) =
      derivedNameEdges p ms ∧
    ((update_note env g p t c ws ms hs).1).hasTagE.filter (fun e => e.src = p) =
      derivedNameEdges p hs := by
  obtain ⟨h1, h2, h3⟩ := update_note_edges env g p t c ws ms hs
  refine ⟨?_, ?_, ?_⟩
  · rw [h1, List.filter_append,
      filter_src_eq_nil_of_ne (fun e he => mem_filter_src_ne he),
      filter_src_eq_self_of_eq (fun e he => derivedLinkEdges_src he)]
    simp
  · rw [h2, List.filter_append,
      filter_src_eq_nil_of_ne (fun e he => mem_filter_src_ne he),
      filter_src_eq_self_of_eq (fun e he => derivedNameEdges_src he)]
    simp
  · rw [h3, List.filter_append,
      filter_src_eq_nil_of_ne (fun e he => mem_filter_src_ne he),
      filter_src_eq_self_of_eq (fun e he => derivedNameEdges_src he)]
    simp

/-- **C1.**  After any two successive successful syncs of a note path `p`
(`update_note`), `p`'s outgoing `LINKS_TO`, `MENTIONS` and `HAS_TAG` edges
are exactly the edges derived from the wikilink, mention and hashtag
records supplied to the second sync — one edge per truthy record, merged
under the edge's `(endpoint, line_number)` identity — and nothing else.
Every edge of the first sync whose record is not re-supplied is gone; in
particular a note first synced linking to `A` and then resynced linking
only to `B` retains no `LINKS_TO` edge to `A` and exactly one to `B`. -/
theorem claim_sync_edges_match_records (env1 env2 : Env) (g : Graph)
    (p t1 c1 t2 c2 : Str) (ws1 ws2 : List WikilinkRec)
    (ms1 ms2 hs1 hs2 : List NameRec) :
    (((update_note env2 (update_note env1 g p t1 c1 ws1 ms1 hs1).1
        p t2 c2 ws2 ms2 hs2).1).linksTo.filter (fun e => e.src = p) =
      derivedLinkEdges p ws2) ∧
    (((update_note env2 (update_note env1 g p t1 c1 ws1 ms1 hs1).1
        p t2 c2 ws2 ms2 hs2).1).mentionsE.filter (fun e => e.src = p) =
      derivedNameEdges p ms2) ∧
    (((update_note env2 (update_note env1 g p t1 c1 ws1 ms1 hs1).1
        p t2 c2 ws2 ms2 hs2).1).hasTagE.filter (fun e => e.src = p) =
      derivedNameEdges p hs2) :=
  update_note_outgoing env2 _ p t2 c2 ws2 ms2 hs2

/-- **C2.**  Syncing the same `(path, title, content, records)` twice in a
row (possibly at different wall-clock times) leaves exactly the same
`LINKS_TO`/`MENTIONS`/`HAS_TAG` edge lists as syncing once: the repetition
creates no duplicate or doubled edges. -/
theorem claim_sync_idempotent (env1 env2 : Env) (g : Graph) (p t c : Str)
    (ws : List WikilinkRec) (ms hs : List NameRec) :
    (((update_note env2 (update_note env1 g p t c ws ms hs).1
        p t c ws ms hs).1).linksTo =
      ((update_note env1 g p t c ws ms hs).1).linksTo) ∧
    (((update_note env2 (update_note env1 g p t c ws ms hs).1
        p t c ws ms hs).1).mentionsE =
      ((update_note env1 g p t c ws ms hs).1).mentionsE) ∧
    (((update_note env2 (update_note env1 g p t c ws ms hs).1
        p t c ws ms hs).1).hasTagE =
      ((update_note env1 g p t c ws ms hs).1).hasTagE) := by
  obtain ⟨h1, h2, h3⟩ := update_note_edges env1 g p t c ws ms hs
  obtain ⟨k1, k2, k3⟩ :=
    update_note_edges env2 ((update_note env1 g p t c ws ms hs).1) p t c ws ms hs
  refine ⟨?_, ?_, ?_⟩
  · rw [k1, h1, List.filter_append,
      filter_src_ne_self_of_ne (fun e he => mem_filter_src_ne he),
      filter_src_ne_nil_of_eq (fun e he => derivedLinkEdges_src he)]
    simp
  · rw [k2, h2, List.filter_append,
      filter_src_ne_self_of_ne (fun e he => mem_filter_src_ne he),
      filter_src_ne_nil_of_eq (fun e he => derivedNameEdges_src he)]
    simp
  · rw [k3, h3, List.filter_append,
      filter_src_ne_self_of_ne (fun e he => mem_filter_src_ne he),
      filter_src_ne_nil_of_eq (fun e he => derivedNameEdges_src he)]
    simp

/-- **C4.**  `delete_note p` removes exactly the Note node keyed `p` and
every edge touching it, then sweeps exactly the Tag nodes left with zero
incoming `HAS_TAG` edges and the Person nodes left with zero incoming
`MENTIONS` and zero outgoing `HAS_NOTE` edges, and returns the
`{deleted: p}` payload.  (A Person mentioned only by the deleted note
therefore disappears unless a surviving `HAS_NOTE` edge protects it, and a
Tag carried only by the deleted note disappears.) -/
theorem claim_delete_note (g : Graph) (p : Str) :
    (∀ n, n ∈ (delete_note g p).1.notes ↔ n ∈ g.notes ∧ n.path ≠ p) ∧
    (∀ e, e ∈ (delete_note g p).1.linksTo ↔
      e ∈ g.linksTo ∧ e.src ≠ p ∧ e.dst ≠ p) ∧
    (∀ e, e ∈ (delete_note g p).1.mentionsE ↔ e ∈ g.mentionsE ∧ e.src ≠ p) ∧
    (∀ e, e ∈ (delete_note g p).1.hasTagE ↔ e ∈ g.hasTagE ∧ e.src ≠ p) ∧
    (∀ e, e ∈ (delete_note g p).1.hasNoteE ↔ e ∈ g.hasNoteE ∧ e.2 ≠ p) ∧
    (∀ t, t ∈ (delete_note g p).1.tags ↔
      t ∈ g.tags ∧ ∃ e ∈ g.hasTagE, e.src ≠ p ∧ e.dst = t) ∧
    (∀ q, q ∈ (delete_note g p).1.persons ↔
      q ∈ g.persons ∧
        ((∃ e ∈ g.mentionsE, e.src ≠ p ∧ e.dst = q.name) ∨
         (∃ e ∈ g.hasNoteE, e.1 = q.name ∧ e.2 ≠ p))) ∧
    (delete_note g p).2 = p := by
  refine ⟨?_, ?_, ?_, ?_, ?_, ?_, ?_, rfl⟩
  · intro n
    simp [delete_note, List.mem_filter]
  · intro e
    simp [delete_note, List.mem_filter, and_assoc]
  · intro e
    simp [delete_note, List.mem_filter]
  · intro e
    simp [delete_note, List.mem_filter]
  · intro e
    simp [delete_note, List.mem_filter]
  · intro t
    simp only [delete_note, List.mem_filter, List.any_eq_true,
      decide_eq_true_eq, ne_eq]
    tauto
  · intro q
    simp only [delete_note, List.mem_filter, Bool.or_eq_true, List.any_eq_true,
      decide_eq_true_eq, ne_eq]
    constructor
    · rintro ⟨hq, ⟨e, ⟨he, hs⟩, hd⟩ | ⟨e, ⟨he, hs⟩, hd⟩⟩
      · exact ⟨hq, Or.inl ⟨e, he, hs, hd⟩⟩
      · exact ⟨hq, Or.inr ⟨e, he, hd, hs⟩⟩
    · rintro ⟨hq, ⟨e, he, hs, hd⟩ | ⟨e, he, hd, hs⟩⟩
      · exact ⟨hq, Or.inl ⟨e, ⟨he, hs⟩, hd⟩⟩
      · exact ⟨hq, Or.inr ⟨e, ⟨he, hs⟩, hd⟩⟩

/-! ### The two per-note indexing routines (claim C7) -/

/-- **C7.**  The bridge's per-note indexing routine
(`MemgraphBridge._update_note_internal`) and the tool server's
(`MemgraphNotesServer._index_note`) perform the same graph mutations in the
same order and produce equal resulting graph states on every input and
every starting graph (the wall-clock timestamp and content hash being
supplied identically through `env`): the duplicated sync logic has no
behavioural difference. -/
theorem claim_index_note_routines_equal (env : Env) (g : Graph) (note : NoteRec) :
    update_note_internal env g note.path note.title note.content
      note.wikilinks note.mentions note.hashtags = serverIndexNote env g note := rfl

/-- Running `_index_note`'s statement list with an inexhaustible failure
budget is exactly `serverIndexNote`: the failure model of claim C3 agrees
with the plain embedding when nothing fails. -/
theorem runQueries_none (qs : List (Graph → Graph)) :
    ∀ g, runQueries qs none g = (qs.foldl (fun g q => q g) g, none, true) := by
  induction qs with
  | nil => intro g; rfl
  | cons q qs ih => intro g; exact ih (q g)

theorem foldl_filterMap_wiki (p : Str) (ws : List WikilinkRec) :
    ∀ g : Graph,
      (ws.filterMap (fun l =>
        if l.target_path ≠ [] then some (fun g => serverWikiStep p g l)
        else none)).foldl (fun g q => q g) g = ws.foldl (serverWikiStep p) g := by
  induction ws with
  | nil => intro g; rfl
  | cons l ws ih =>
    intro g
    by_cases h : l.target_path = []
    · simp only [List.filterMap_cons, h, ne_eq, not_true_eq_false, if_false,
        List.foldl_cons]
      rw [ih]
      congr 1
      unfold serverWikiStep
      simp [h]
    · simp only [List.filterMap_cons, ne_eq, h, not_false_eq_true, if_true,
        List.foldl_cons]
      exact ih _

theorem foldl_filterMap_mention (p : Str) (ms : List NameRec) :
    ∀ g : Graph,
      (ms.filterMap (fun m =>
        if m.name ≠ [] then some (fun g => serverMentionStep p g m)
        else none)).foldl (fun g q => q g) g = ms.foldl (serverMentionStep p) g := by
  induction ms with
  | nil => intro g; rfl
  | cons m ms ih =>
    intro g
    by_cases h : m.name = []
    · simp only [List.filterMap_cons, h, ne_eq, not_true_eq_false, if_false,
        List.foldl_cons]
      rw [ih]
      congr 1
      unfold serverMentionStep
      simp [h]
    · simp only [List.filterMap_cons, ne_eq, h, not_false_eq_true, if_true,
        List.foldl_cons]
      exact ih _

theorem foldl_filterMap_hashtag (p : Str) (hs : List NameRec) :
    ∀ g : Graph,
      (hs.filterMap (fun t =>
        if t.name ≠ [] then some (fun g => serverHashtagStep p g t)
        else none)).foldl (fun g q => q g) g = hs.foldl (serverHashtagStep p) g := by
  induction hs with
  | nil => intro g; rfl
  | cons t hs ih =>
    intro g
    by_cases h : t.name = []
    · simp only [List.filterMap_cons, h, ne_eq, not_true_eq_false, if_false,
        List.foldl_cons]
      rw [ih]
      congr 1
      unfold serverHashtagStep
      simp [h]
    · simp only [List.filterMap_cons, ne_eq, h, not_false_eq_true, if_true,
        List.foldl_cons]
      exact ih _

theorem indexNoteF_none (env : Env) (note : NoteRec) (g : Graph) :
    indexNoteF env note none g = (serverIndexNote env g note, none, true) := by
  unfold indexNoteF indexNoteQueries serverIndexNote
  rw [runQueries_none]
  simp only [List.foldl_append, List.foldl_cons, List.foldl_nil]
  rw [foldl_filterMap_wiki, foldl_filterMap_mention, foldl_filterMap_hashtag]
  by_cases h : containsSub "/people/".toList note.path = true
  · rw [if_pos h]
    simp only [List.foldl_cons, List.foldl_nil]
    unfold serverPeopleStep
    rw [if_pos h]
    rfl
  · rw [if_neg h]
    simp only [List.foldl_nil]
    unfold serverPeopleStep
    rw [if_neg h]
    rfl

/-! ### Reindex accounting and the fate of failed files (claim C3) -/

theorem runQueries_some (qs : List (Graph → Graph)) :
    ∀ (k : Nat) (g : Graph),
      (runQueries qs (some k) g).2.2 = decide (qs.length ≤ k) := by
  induction qs with
  | nil => intro k g; simp [runQueries]
  | cons q qs ih =>
    intro k g
    cases k with
    | zero => simp [runQueries]
    | succ k => simp [runQueries, ih k (q g), Nat.succ_le_succ_iff]

theorem runQueries_some_zero_fst (qs : List (Graph → Graph)) (g : Graph) :
    (runQueries qs (some 0) g).1 = g := by
  cases qs <;> rfl

/-- A per-file run raises iff `noteFails` says so; the flag does not depend
on the current graph. -/
theorem indexNoteF_ok (env : Env) (root : Str) (f : ReindexFile) (g : Graph) :
    (indexNoteF env (extract_from_file f.path root f.readResult) f.fuel g).2.2 =
      !noteFails env root f := by
  unfold indexNoteF noteFails
  cases hf : f.fuel with
  | none => rw [runQueries_none]; rfl
  | some k =>
    rw [runQueries_some]
    by_cases h : (indexNoteQueries env
        (extract_from_file f.path root f.readResult)).length ≤ k
    · simp [h, Nat.not_lt.mpr h]
    · simp [h, Nat.lt_of_not_le h]

theorem length_filter_add_length_filter_not (p : α → Bool) (l : List α) :
    (l.filter p).length + (l.filter (fun a => !p a)).length = l.length := by
  induction l with
  | nil => rfl
  | cons a l ih =>
    by_cases h : p a <;> simp [h, List.filter_cons] <;> omega

theorem reindexStep_fst (env : Env) (root : Str) (acc : Graph × Nat × List Str)
    (f : ReindexFile) :
    (reindexStep env root acc f).1 =
      (indexNoteF env (extract_from_file f.path root f.readResult)
        f.fuel acc.1).1 := by
  cases h : (indexNoteF env (extract_from_file f.path root f.readResult)
      f.fuel acc.1).2.2 <;> simp [reindexStep, h]

/-- The counter/error bookkeeping of the reindex fold: starting from
`(g, i, errs)`, the fold adds one to the index count per non-failing file
and appends one error record per failing file, in order. -/
theorem reindex_fold_spec (env : Env) (root : Str) (files : List ReindexFile) :
    ∀ (g : Graph) (i : Nat) (errs : List Str),
      (files.foldl (reindexStep env root) (g, i, errs)).2.1 =
        i + (files.filter (fun f => !noteFails env root f)).length ∧
      (files.foldl (reindexStep env root) (g, i, errs)).2.2 =
        errs ++ (files.filter (noteFails env root)).map (fun f => f.path) := by
  induction files with
  | nil => intro g i errs; simp
  | cons f fs ih =>
    intro g i errs
    rw [List.foldl_cons]
    have hok := indexNoteF_ok env root f g
    by_cases h : noteFails env root f
    · have hstep : reindexStep env root (g, i, errs) f =
          ((indexNoteF env (extract_from_file f.path root f.readResult)
            f.fuel g).1, i, errs ++ [f.path]) := by
        simp [reindexStep, hok, h]
      rw [hstep]
      obtain ⟨h1, h2⟩ := ih
        ((indexNoteF env (extract_from_file f.path root f.readResult) f.fuel g).1)
        i (errs ++ [f.path])
      refine ⟨?_, ?_⟩
      · rw [h1]
        simp [List.filter_cons, h]
      · rw [h2]
        simp [List.filter_cons, h]
    · have hstep : reindexStep env root (g, i, errs) f =
          ((indexNoteF env (extract_from_file f.path root f.readResult)
            f.fuel g).1, i + 1, errs) := by
        simp [reindexStep, hok, h]
      rw [hstep]
      obtain ⟨h1, h2⟩ := ih
        ((indexNoteF env (extract_from_file f.path root f.readResult) f.fuel g).1)
        (i + 1) errs
      refine ⟨?_, ?_⟩
      · rw [h1]
        simp [List.filter_cons, h]
        omega
      · rw [h2]
        simp [List.filter_cons, h]

theorem pathsOfNotes_map_path_eq (ns : List Note) (upd : Note → Note)
    (h : ∀ n, (upd n).path = n.path) :
    (ns.map upd).map (fun n => n.path) = ns.map (fun n => n.path) := by
  rw [List.map_map]
  exact List.map_congr_left (fun n _ => h n)

theorem pathsOfNotes_upsertNote {p q t f h m : Str} {ns : List Note}
    (hne : q ≠ p) (hg : p ∉ ns.map (fun n => n.path)) :
    p ∉ (upsertNote ns q t f h m).map (fun n => n.path) := by
  unfold upsertNote
  split
  · rw [pathsOfNotes_map_path_eq]
    · exact hg
    · intro n
      split <;> rfl
  · simp only [List.map_append, List.mem_append]
    rintro (h1 | h1)
    · exact hg h1
    · simp at h1
      exact hne h1.symm

theorem pathsOfNotes_mergeNoteStub {p tp : Str} {ns : List Note}
    (hne : tp ≠ p) (hg : p ∉ ns.map (fun n => n.path)) :
    p ∉ (mergeNoteStub ns tp).map (fun n => n.path) := by
  unfold mergeNoteStub
  split
  · exact hg
  · simp only [List.map_append, List.mem_append]
    rintro (h1 | h1)
    · exact hg h1
    · simp at h1
      exact hne h1.symm

theorem serverWikiStep_notePaths {p pp : Str} {g : Graph} {l : WikilinkRec}
    (hne : l.target_path ≠ pp) (hg : pp ∉ notePaths g) :
    pp ∉ notePaths (serverWikiStep p g l) := by
  unfold serverWikiStep notePaths at *
  split
  · exact pathsOfNotes_mergeNoteStub hne hg
  · exact hg

theorem serverMentionStep_notes (p : Str) (g : Graph) (m : NameRec) :
    (serverMentionStep p g m).notes = g.notes := by
  unfold serverMentionStep
  split <;> rfl

theorem serverHashtagStep_notes (p : Str) (g : Graph) (t : NameRec) :
    (serverHashtagStep p g t).notes = g.notes := by
  unfold serverHashtagStep
  split <;> rfl

/-- A statement of `_index_note` can only create a Note node at its own
path or at the target path of one of its wikilink records. -/
theorem indexNoteQueries_preserve (env : Env) (note : NoteRec) (p : Str)
    (hpath : note.path ≠ p)
    (hw : ∀ w ∈ note.wikilinks, w.target_path ≠ p) :
    ∀ q ∈ indexNoteQueries env note, ∀ g : Graph,
      p ∉ notePaths g → p ∉ notePaths (q g) := by
  intro q hq g hg
  unfold indexNoteQueries at hq
  simp only [List.cons_append, List.mem_cons, List.mem_append,
    List.mem_filterMap] at hq
  rcases hq with rfl |
    (((hq0 | ⟨l, hl, hsome⟩) | ⟨m, hm, hsome⟩) | ⟨t, ht, hsome⟩) | hq
  · exact pathsOfNotes_upsertNote hpath hg
  · cases hq0
  · split at hsome
    · cases hsome
      exact serverWikiStep_notePaths (hw l hl) hg
    · cases hsome
  · split at hsome
    · cases hsome
      show p ∉ notePaths (serverMentionStep note.path g m)
      rw [show notePaths (serverMentionStep note.path g m) = notePaths g from by
        unfold notePaths; rw [serverMentionStep_notes]]
      exact hg
    · cases hsome
  · split at hsome
    · cases hsome
      show p ∉ notePaths (serverHashtagStep note.path g t)
      rw [show notePaths (serverHashtagStep note.path g t) = notePaths g from by
        unfold notePaths; rw [serverHashtagStep_notes]]
      exact hg
    · cases hsome
  · split at hq
    · simp only [List.mem_singleton] at hq
      subst hq
      exact hg
    · simp at hq

theorem runQueries_fst_preserve {P : Graph → Prop}
    (qs : List (Graph → Graph)) (h : ∀ q ∈ qs, ∀ g, P g → P (q g)) :
    ∀ (fuel : Option Nat) (g : Graph), P g → P (runQueries qs fuel g).1 := by
  induction qs with
  | nil => intro fuel g hg; cases fuel <;> exact hg
  | cons q qs ih =>
    intro fuel g hg
    cases fuel with
    | none =>
      exact ih (fun q hq => h q (List.mem_cons_of_mem _ hq)) none (q g)
        (h q (List.mem_cons_self ..) g hg)
    | some k =>
      cases k with
      | zero => exact hg
      | succ k =>
        exact ih (fun q hq => h q (List.mem_cons_of_mem _ hq)) (some k) (q g)
          (h q (List.mem_cons_self ..) g hg)

theorem extract_from_file_path (fp root : Str) (rr : Option Str) :
    (extract_from_file fp root rr).path = fp := by
  cases rr <;> rfl

theorem reindexStep_preserve (env : Env) (root p : Str) (f : ReindexFile)
    (h1 : f.path = p → f.fuel = some 0)
    (h2 : ∀ w ∈ (extract_from_file f.path root f.readResult).wikilinks,
      w.target_path ≠ p) :
    ∀ acc : Graph × Nat × List Str, p ∉ notePaths acc.1 →
      p ∉ notePaths (reindexStep env root acc f).1 := by
  intro acc hacc
  rw [reindexStep_fst]
  by_cases hp : f.path = p
  · rw [h1 hp]
    unfold indexNoteF
    rw [runQueries_some_zero_fst]
    exact hacc
  · exact runQueries_fst_preserve _
      (indexNoteQueries_preserve env _ p
        (by rw [extract_from_file_path]; exact hp) h2) f.fuel acc.1 hacc

theorem reindex_fold_preserve (env : Env) (root p : Str)
    (files : List ReindexFile)
    (hf : ∀ f ∈ files, (f.path = p → f.fuel = some 0) ∧
      (∀ w ∈ (extract_from_file f.path root f.readResult).wikilinks,
        w.target_path ≠ p)) :
    ∀ acc : Graph × Nat × List Str, p ∉ notePaths acc.1 →
      p ∉ notePaths (files.foldl (reindexStep env root) acc).1 := by
  induction files with
  | nil => intro acc hacc; exact hacc
  | cons f fs ih =>
    intro acc hacc
    rw [List.foldl_cons]
    have hfhd := hf f (List.mem_cons_self ..)
    exact ih (fun f hf2 => hf f (List.mem_cons_of_mem _ hf2)) _
      (reindexStep_preserve env root p f hfhd.1 hfhd.2 acc hacc)

/-- **C3 (counterexample to the claim as stated).**  One file is reindexed;
its second statement (the wikilink `MERGE`) raises after the Note upsert
already ran.  `reindex` duly reports `indexed = 0`, `total = 1` and one
`{path, error}` record — but the graph *does* contain a Note node for the
failed path, contradicting the claim's final conjunct. -/
theorem claim_reindex_counterexample :
    (reindex_all_notes c3env "/n".toList [c3fileMid] emptyGraph).2.indexed = 0 ∧
    (reindex_all_notes c3env "/n".toList [c3fileMid] emptyGraph).2.total = 1 ∧
    (reindex_all_notes c3env "/n".toList [c3fileMid] emptyGraph).2.errors =
      ["/n/a.md".toList] ∧
    "/n/a.md".toList ∈
      notePaths (reindex_all_notes c3env "/n".toList [c3fileMid] emptyGraph).1 := by
  decide

/-- **C3 (amended).**  For `N` files of which `M` fail during indexing,
`reindex_all_notes` never aborts on a per-file failure, accumulates one
`{path, error}` record per failed file (in order), and returns
`{indexed: N − M, total: N, errors: length M}`.  The graph afterwards
contains no Note node for a failed path `p` provided every file at `p`
failed before its first statement (so `p`'s Note upsert never ran) and no
file's wikilinks target `p` (otherwise a stub or partially-indexed Note at
`p` may remain, as the counterexample shows). -/
theorem claim_reindex_amended (env : Env) (root : Str)
    (files : List ReindexFile) (g : Graph) (p : Str)
    (h1 : ∀ f ∈ files, f.path = p → f.fuel = some 0)
    (h2 : ∀ f ∈ files,
      ∀ w ∈ (extract_from_file f.path root f.readResult).wikilinks,
        w.target_path ≠ p) :
    (reindex_all_notes env root files g).2.total = files.length ∧
    (reindex_all_notes env root files g).2.indexed =
      files.length - (files.filter (noteFails env root)).length ∧
    (reindex_all_notes env root files g).2.errors =
      (files.filter (noteFails env root)).map (fun f => f.path) ∧
    p ∉ notePaths (reindex_all_notes env root files g).1 := by
  obtain ⟨hc1, hc2⟩ := reindex_fold_spec env root files emptyGraph 0 []
  have hsum := length_filter_add_length_filter_not (noteFails env root) files
  refine ⟨rfl, ?_, ?_, ?_⟩
  · show (files.foldl (reindexStep env root) (emptyGraph, 0, [])).2.1 = _
    rw [hc1]
    omega
  · show (files.foldl (reindexStep env root) (emptyGraph, 0, [])).2.2 = _
    rw [hc2]
    simp
  · show p ∉ notePaths (files.foldl (reindexStep env root) (emptyGraph, 0, [])).1
    exact reindex_fold_preserve env root p files
      (fun f hf => ⟨h1 f hf, h2 f hf⟩) (emptyGraph, 0, [])
      (by simp [notePaths, emptyGraph])

/-- Witness for the amended C3: two files, one failing before its first
statement; the counts come out as `{indexed: 1, total: 2, errors: 1}` and
the failed path has no Note node. -/
theorem claim_reindex_amended_witness :
    (reindex_all_notes c3env "/n".toList [c3fileGood, c3fileBad]
      emptyGraph).2.total = [c3fileGood, c3fileBad].length ∧
    (reindex_all_notes c3env "/n".toList [c3fileGood, c3fileBad]
      emptyGraph).2.indexed =
      [c3fileGood, c3fileBad].length -
        ([c3fileGood, c3fileBad].filter (noteFails c3env "/n".toList)).length ∧
    (reindex_all_notes c3env "/n".toList [c3fileGood, c3fileBad]
      emptyGraph).2.errors =
      ([c3fileGood, c3fileBad].filter (noteFails c3env "/n".toList)).map
        (fun f => f.path) ∧
    "/n/c.md".toList ∉ notePaths (reindex_all_notes c3env "/n".toList
      [c3fileGood, c3fileBad] emptyGraph).1 :=
  claim_reindex_amended c3env "/n".toList [c3fileGood, c3fileBad] emptyGraph
    "/n/c.md".toList (by decide) (by decide)

/-- **C8 (counterexample to the claim as stated).**  The claim (sourced to
both `server.get_graph_stats` and `bridge.get_stats`) says a failing count
sub-query never fails the overall stats call.  When only the `persons`
count query fails, the bridge's `stats` action aborts with an error
response (`none`) instead of returning a stats payload — while the MCP
server's `get_graph_stats` on the same state returns `persons = 0` with
every other key's true count, as the claim expects. -/
theorem claim_graph_stats_counterexample :
    bridge_get_stats c8graph c8oracle = none ∧
    get_graph_stats c8graph c8oracle =
      { notes := 1, persons := 0, tags := 1, links := 0, mentions := 0,
        tag_usages := 1 } := by
  decide

/-- **C8 (amended).**  For every graph state and every subset of failing
count sub-queries: the MCP server's `get_graph_stats` always returns,
reporting 0 for each failed key and the true count for every other key; the
bridge's `stats` action, by contrast, fails the whole call exactly when at
least one of the six count queries fails, and returns the six true counts
otherwise. -/
theorem claim_graph_stats_amended (g : Graph) (o : StatsOracle) :
    get_graph_stats g o =
      { notes := if o.notes then 0 else countNotes g,
        persons := if o.persons then 0 else countPersons g,
        tags := if o.tags then 0 else countTags g,
        links := if o.links then 0 else countLinks g,
        mentions := if o.mentions then 0 else countMentions g,
        tag_usages := if o.tag_usages then 0 else countTagUsages g } ∧
    (bridge_get_stats g o = none ↔
      (o.notes ∨ o.persons ∨ o.tags ∨ o.links ∨ o.mentions ∨ o.tag_usages)) ∧
    (∀ s, bridge_get_stats g o = some s →
      s = { notes := countNotes g, persons := countPersons g,
            tags := countTags g, links := countLinks g,
            mentions := countMentions g, tag_usages := countTagUsages g }) := by
  obtain ⟨b1, b2, b3, b4, b5, b6⟩ := o
  refine ⟨rfl, ?_, ?_⟩
  · cases b1 <;> cases b2 <;> cases b3 <;> cases b4 <;> cases b5 <;> cases b6 <;>
      simp [bridge_get_stats]
  · intro s hs
    cases b1 <;> cases b2 <;> cases b3 <;> cases b4 <;> cases b5 <;> cases b6 <;>
      simp_all [bridge_get_stats]

/-! ### Tag and mention lookup (claim C9) -/

theorem strLe_total : ∀ a b : Str, strLe a b || strLe b a := by
  intro a
  induction a with
  | nil => intro b; simp [strLe]
  | cons x xs ih =>
    intro b
    cases b with
    | nil => simp [strLe]
    | cons y ys =>
      by_cases hxy : x = y
      · subst hxy
        simpa [strLe] using ih ys
      · rcases lt_or_gt_of_ne hxy with h | h
      

        · simp [strLe, hxy, h]
        · simp [strLe, hxy, Ne.symm hxy, h, not_lt_of_gt h]

theorem strLe_trans : ∀ a b c : Str,
    strLe a b = true → strLe b c = true → strLe a c = true := by
  intro a
  induction a with
  | nil => intro b c _ _; simp [strLe]
  | cons x xs ih =>
    intro b c hab hbc
    cases b with
    | nil => simp [strLe] at hab
    | cons y ys =>
      cases c with
      | nil => simp [strLe] at hbc
      | cons z zs =>
        by_cases hxy : x = y <;> by_cases hyz : y = z
        · subst hxy; subst hyz
          simp only [strLe, if_pos rfl] at *
          exact ih ys zs hab hbc
        · subst hxy
          simp only [strLe, if_pos rfl, if_neg hyz] at *
          simp_all
        · subst hyz
          simp only [strLe, if_neg hxy] at *
          simp_all
        · simp only [strLe, if_neg hxy, if_neg hyz] at *
          simp only [decide_eq_true_eq] at hab hbc
          have hxz : x < z := lt_trans hab hbc
          simp [ne_of_lt hxz, hxz]

theorem rowLe_total : ∀ a b : Row, rowLe a b || rowLe b a := by
  rintro ⟨pa, ta, la⟩ ⟨pb, tb, lb⟩
  unfold rowLe optStrLe
  dsimp only
  cases ta with
  | none => simp
  | some ta =>
    cases tb with
    | none => simp
    | some tb => exact strLe_total ta tb

theorem rowLe_trans : ∀ a b c : Row,
    rowLe a b = true → rowLe b c = true → rowLe a c = true := by
  rintro ⟨pa, ta, la⟩ ⟨pb, tb, lb⟩ ⟨pc, tc, lc⟩ hab hbc
  unfold rowLe optStrLe at *
  dsimp only at *
  cases ta with
  | none => rfl
  | some ta =>
    cases tb with
    | none => simp at hab
    | some tb =>
      cases tc with
      | none => simp at hbc
      | some tc => exact strLe_trans ta tb tc hab hbc

/-- **C9 (counterexample to the claim as stated).**  On input `"##ops"` the
claim prescribes stripping *a* leading `#` and looking up the key `"#ops"`
— whose exact match on this graph is non-empty, as the second conjunct
shows.  The code's `lstrip("#")` strips *all* leading `#` characters and
looks up `"ops"`, returning no rows. -/
theorem claim_find_by_tag_counterexample :
    find_by_tag c9graph "##ops".toList = [] ∧
    tagMatchRows c9graph "#ops".toList =
      [{ path := "/n/a.md".toList, title := some "A".toList, line := 2 }] := by
  constructor
  · show (tagMatchRows c9graph
      ("##ops".toList.dropWhile (fun c => c = '#'))).mergeSort rowLe = []
    rw [show tagMatchRows c9graph
      ("##ops".toList.dropWhile (fun c => c = '#')) = [] from by decide]
    exact List.mergeSort_nil
  · decide

/-- **C9 (amended).**  `find_by_tag` / `find_by_mention` strip *all*
leading `#` / `@` characters from the input (Python `lstrip`), perform an
exact-match lookup on the Tag / Person name with that key, and return the
matching `(path, title, line)` rows ordered by note title: the result is a
permutation of the exact-match rows and is sorted by title. -/
theorem claim_find_by_tag_mention_amended (g : Graph) (s : Str) :
    (find_by_tag g s).Perm
      (tagMatchRows g (s.dropWhile (fun c => c = '#'))) ∧
    List.Pairwise (fun a b => rowLe a b = true) (find_by_tag g s) ∧
    (find_by_mention g s).Perm
      (personMatchRows g (s.dropWhile (fun c => c = '@'))) ∧
    List.Pairwise (fun a b => rowLe a b = true) (find_by_mention g s) := by
  refine ⟨List.mergeSort_perm _ _, ?_, List.mergeSort_perm _ _, ?_⟩
  · exact List.sorted_mergeSort rowLe_trans rowLe_total _
  · exact List.sorted_mergeSort rowLe_trans rowLe_total _

/-! ### Note context (claim C10) -/

theorem truthyOptStr_iff {t : Option Str} :
    truthyOptStr t = true ↔ t ≠ none ∧ t ≠ some [] := by
  cases t with
  | none => simp [truthyOptStr]
  | some s =>
    cases s <;> simp [truthyOptStr]

/-- **C10.**  When the context lookup finds the note, the four returned
lists carry no null or empty placeholder entries (rows whose name is
null/empty, or whose path is missing/empty, are filtered out); and a note
with no relationships at all yields four empty lists — not lists holding a
single null element. -/
theorem claim_get_note_context (g : Graph) (p : Str) (ctx : NoteCtx)
    (h : get_note_context g p = some ctx) :
    (∀ t ∈ ctx.tags, t ≠ none ∧ t ≠ some []) ∧
    (∀ m ∈ ctx.mentions, m ≠ none ∧ m ≠ some []) ∧
    (∀ l ∈ ctx.outgoing_links, l.path ≠ none ∧ l.path ≠ some []) ∧
    (∀ l ∈ ctx.backlinks, l.path ≠ none ∧ l.path ≠ some []) ∧
    ((∀ e ∈ g.linksTo, e.src ≠ p ∧ e.dst ≠ p) →
      (∀ e ∈ g.hasTagE, e.src ≠ p) →
      (∀ e ∈ g.mentionsE, e.src ≠ p) →
      ctx.outgoing_links = [] ∧ ctx.tags = [] ∧ ctx.mentions = [] ∧
        ctx.backlinks = []) := by
  unfold get_note_context at h
  cases hn : g.notes.find? (fun n => n.path = p) with
  | none => rw [hn] at h; cases h
  | some n =>
    rw [hn] at h
    injection h with h
    subst h
    refine ⟨?_, ?_, ?_, ?_, ?_⟩
    · intro t ht
      exact truthyOptStr_iff.mp (List.mem_filter.mp ht).2
    · intro m hm
      exact truthyOptStr_iff.mp (List.mem_filter.mp hm).2
    · intro l hl
      exact truthyOptStr_iff.mp (List.mem_filter.mp hl).2
    · intro l hl
      exact truthyOptStr_iff.mp (List.mem_filter.mp hl).2
    · intro h1 h2 h3
      have hlo : g.linksTo.filter (fun e => e.src = p) = [] :=
        filter_src_eq_nil_of_ne (fun e he => (h1 e he).1)
      have hlb : g.linksTo.filter (fun e => e.dst = p) = [] := by
        rw [List.filter_eq_nil_iff]
        intro e he
        simp [(h1 e he).2]
      have hte : g.hasTagE.filter (fun e => e.src = p) = [] :=
        filter_src_eq_nil_of_ne h2
      have hme : g.mentionsE.filter (fun e => e.src = p) = [] :=
        filter_src_eq_nil_of_ne h3
      refine ⟨?_, ?_, ?_, ?_⟩
      · simp [hlo, collectDistinctMaps, truthyOptStr]
      · simp [hte, collectDistinctVals]
      · simp [hme, collectDistinctVals]
      · simp [hlb, collectDistinctMaps, truthyOptStr]

/-- Witness for C10: a relationship-free note yields four empty lists. -/
theorem claim_get_note_context_witness :
    get_note_context c10graph "/n/a.md".toList = some c10ctx ∧
    ((∀ t ∈ c10ctx.tags, t ≠ none ∧ t ≠ some []) ∧
     (∀ m ∈ c10ctx.mentions, m ≠ none ∧ m ≠ some []) ∧
     (∀ l ∈ c10ctx.outgoing_links, l.path ≠ none ∧ l.path ≠ some []) ∧
     (∀ l ∈ c10ctx.backlinks, l.path ≠ none ∧ l.path ≠ some []) ∧
     ((∀ e ∈ c10graph.linksTo, e.src ≠ "/n/a.md".toList ∧
         e.dst ≠ "/n/a.md".toList) →
      (∀ e ∈ c10graph.hasTagE, e.src ≠ "/n/a.md".toList) →
      (∀ e ∈ c10graph.mentionsE, e.src ≠ "/n/a.md".toList) →
      c10ctx.outgoing_links = [] ∧ c10ctx.tags = [] ∧ c10ctx.mentions = [] ∧
        c10ctx.backlinks = [])) :=
  ⟨by decide,
   claim_get_note_context c10graph "/n/a.md".toList c10ctx (by decide)⟩

/-! ### Titles (claim C6) -/

theorem splitLines_cons_newline (cs : Str) :
    splitLines ('\n' :: cs) = [] :: splitLines cs := by
  conv_lhs => unfold splitLines
  rw [if_pos rfl]

theorem splitLines_cons {c : Char} (cs : Str) (h : c ≠ '\n') :
    splitLines (c :: cs) =
      match splitLines cs with
      | l :: ls => (c :: l) :: ls
      | [] => [[c]] := by
  conv_lhs => unfold splitLines
  rw [if_neg h]

theorem splitLines_no_newline {l : Str} (h : '\n' ∉ l) :
    splitLines l = [l] := by
  induction l with
  | nil => rfl
  | cons c cs ih =>
    have hc : c ≠ '\n' := fun hc => h (hc ▸ List.mem_cons_self ..)
    have hcs : '\n' ∉ cs := fun hm => h (List.mem_cons_of_mem _ hm)
    rw [splitLines_cons cs hc, ih hcs]

theorem splitLines_append_newline {l : Str} (r : Str) (h : '\n' ∉ l) :
    splitLines (l ++ '\n' :: r) = l :: splitLines r := by
  induction l with
  | nil =>
    show splitLines ('\n' :: r) = [] :: splitLines r
    exact splitLines_cons_newline r
  | cons c cs ih =>
    have hc : c ≠ '\n' := fun hc => h (hc ▸ List.mem_cons_self ..)
    have hcs : '\n' ∉ cs := fun hm => h (List.mem_cons_of_mem _ hm)
    show splitLines (c :: (cs ++ '\n' :: r)) = (c :: cs) :: splitLines r
    rw [splitLines_cons _ hc, ih hcs]

/-- Splitting re-divides joined newline-free lines exactly. -/
theorem splitLines_joinLines : ∀ {ls : List Str}, ls ≠ [] →
    (∀ l ∈ ls, '\n' ∉ l) → splitLines (joinLines ls) = ls := by
  intro ls
  induction ls with
  | nil => intro h; cases h rfl
  | cons l rest ih =>
    intro _ h2
    cases rest with
    | nil =>
      show splitLines (joinLines [l]) = [l]
      exact splitLines_no_newline (h2 l (List.mem_cons_self ..))
    | cons l2 rest2 =>
      show splitLines (l ++ '\n' :: joinLines (l2 :: rest2)) = l :: l2 :: rest2
      rw [splitLines_append_newline _ (h2 l (List.mem_cons_self ..))]
      rw [ih (by simp) (fun x hx => h2 x (List.mem_cons_of_mem _ hx))]

/-- **C6 (counterexample to the claim as stated).**  An empty file is
readable; `''.split('\n')` is `['']`, so the first line is the empty
string and the title comes out empty — not the filename stem `foo` the
claim prescribes for empty files (the `if lines else stem` fallback in the
source is unreachable because `split` never returns an empty list). -/
theorem claim_title_counterexample :
    (extract_from_file "/n/foo.md".toList "/n".toList (some [])).title = [] ∧
    pStem "/n/foo.md".toList = "foo".toList ∧
    ([] : Str) ≠ "foo".toList := by
  decide

/-- **C6 (amended).**  For every readable file the title is the first line
of the content with a leading heading marker (`#`, `##`, … followed by a
space) stripped — in particular an empty readable file yields an *empty*
title, not the stem; the filename-stem default applies exactly to
unreadable files. -/
theorem claim_title_amended (fp root : Str) (lines : List Str)
    (h1 : lines ≠ []) (h2 : ∀ l ∈ lines, '\n' ∉ l) :
    (extract_from_file fp root (some (joinLines lines))).title =
      stripHeading (lines.head h1) ∧
    (extract_from_file fp root none).title = pStem fp ∧
    (extract_from_file fp root (some [])).title = [] := by
  refine ⟨?_, rfl, rfl⟩
  cases lines with
  | nil => cases h1 rfl
  | cons l rest =>
    have hs : splitLines (joinLines (l :: rest)) = l :: rest :=
      splitLines_joinLines (by simp) h2
    simp [extract_from_file, hs]

/-- Witness for the amended C6 at a concrete two-line file, an unreadable
file and an empty file. -/
theorem claim_title_amended_witness :
    (extract_from_file "/n/foo.md".toList "/n".toList
        (some (joinLines ["# Hello".toList, "body".toList]))).title =
      stripHeading "# Hello".toList ∧
    (extract_from_file "/n/foo.md".toList "/n".toList none).title =
      pStem "/n/foo.md".toList ∧
    (extract_from_file "/n/foo.md".toList "/n".toList (some [])).title = [] :=
  claim_title_amended "/n/foo.md".toList "/n".toList
    ["# Hello".toList, "body".toList] (by decide) (by decide)

theorem takeWhile_append_all {p : Char → Bool} {l : Str} (r : Str)
    (h : ∀ c ∈ l, p c) : (l ++ r).takeWhile p = l ++ r.takeWhile p := by
  induction l with
  | nil => rfl
  | cons c cs ih =>
    have hc := h c (List.mem_cons_self ..)
    simp only [List.cons_append, List.takeWhile_cons, hc, if_true]
    rw [ih (fun c hc => h c (List.mem_cons_of_mem _ hc))]

theorem dropWhile_append_all {p : Char → Bool} {l : Str} (r : Str)
    (h : ∀ c ∈ l, p c) : (l ++ r).dropWhile p = r.dropWhile p := by
  induction l with
  | nil => rfl
  | cons c cs ih =>
    have hc := h c (List.mem_cons_self ..)
    simp only [List.cons_append, List.dropWhile_cons, hc, if_true]
    exact ih (fun c hc => h c (List.mem_cons_of_mem _ hc))

/-- Computation rule: `wikiMatchAt` at a double bracket. -/
theorem wikiMatchAt_cons2 (rest : Str) :
    wikiMatchAt ('[' :: '[' :: rest) =
      (if rest.takeWhile (fun c => c ≠ ']' && c ≠ '|') = [] then none
       else wikiAfterTarget (rest.takeWhile (fun c => c ≠ ']' && c ≠ '|'))
         (rest.dropWhile (fun c => c ≠ ']' && c ≠ '|'))) := rfl

theorem wikiAfterTarget_brackets (t rest2 : Str) :
    wikiAfterTarget t (']' :: ']' :: rest2) = some (t, rest2) := rfl

theorem wikiAfterTarget_pipe (t rest2 : Str) :
    wikiAfterTarget t ('|' :: rest2) =
      (if rest2.takeWhile (fun c => c ≠ ']') = [] then none
       else
         match rest2.dropWhile (fun c => c ≠ ']') with
         | ']' :: ']' :: rest4 => some (t, rest4)
         | _ => none) := rfl

/-- A well-formed link rendered at the head of the input matches, capturing
exactly its target and consuming exactly its rendering. -/
theorem wikiMatchAt_render {t : Str} {a : Option Str} (r : Str)
    (hg : goodChunk (.link t a)) :
    wikiMatchAt (renderChunk (.link t a) ++ r) = some (t, r) := by
  cases a with
  | none =>
    obtain ⟨ht, hchars⟩ := hg
    have hpred : ∀ c ∈ t, (fun c => decide (c ≠ ']') && decide (c ≠ '|')) c = true := by
      intro c hc
      obtain ⟨h1, h2, _⟩ := hchars c hc
      simp [h1, h2]
    have hshape : renderChunk (.link t none) ++ r =
        '[' :: '[' :: (t ++ ']' :: ']' :: r) := by
      simp [renderChunk]
    rw [hshape, wikiMatchAt_cons2]
    rw [takeWhile_append_all (']' :: ']' :: r) hpred,
      dropWhile_append_all (']' :: ']' :: r) hpred]
    have h1 : List.takeWhile (fun c => decide (c ≠ ']') && decide (c ≠ '|'))
        (']' :: ']' :: r) = [] := by
      rw [List.takeWhile_cons]
      simp
    have h2 : List.dropWhile (fun c => decide (c ≠ ']') && decide (c ≠ '|'))
        (']' :: ']' :: r) = ']' :: ']' :: r := by
      rw [List.dropWhile_cons]
      simp
    rw [h1, h2, List.append_nil, if_neg ht, wikiAfterTarget_brackets]
  | some y =>
    obtain ⟨⟨ht, hchars⟩, hy, hychars⟩ := hg
    have hpred : ∀ c ∈ t, (fun c => decide (c ≠ ']') && decide (c ≠ '|')) c = true := by
      intro c hc
      obtain ⟨h1, h2, _⟩ := hchars c hc
      simp [h1, h2]
    have hypred : ∀ c ∈ y, (fun c => decide (c ≠ ']')) c = true := by
      intro c hc
      simpa using (hychars c hc).1
    have hshape : renderChunk (.link t (some y)) ++ r =
        '[' :: '[' :: (t ++ '|' :: (y ++ ']' :: ']' :: r)) := by
      simp [renderChunk]
    rw [hshape, wikiMatchAt_cons2]
    rw [takeWhile_append_all ('|' :: (y ++ ']' :: ']' :: r)) hpred,
      dropWhile_append_all ('|' :: (y ++ ']' :: ']' :: r)) hpred]
    have h1 : List.takeWhile (fun c => decide (c ≠ ']') && decide (c ≠ '|'))
        ('|' :: (y ++ ']' :: ']' :: r)) = [] := by
      rw [List.takeWhile_cons]
      simp
    have h2 : List.dropWhile (fun c => decide (c ≠ ']') && decide (c ≠ '|'))
        ('|' :: (y ++ ']' :: ']' :: r)) = '|' :: (y ++ ']' :: ']' :: r) := by
      rw [List.dropWhile_cons]
      simp
    rw [h1, h2, List.append_nil, if_neg ht, wikiAfterTarget_pipe]
    rw [takeWhile_append_all (']' :: ']' :: r) hypred,
      dropWhile_append_all (']' :: ']' :: r) hypred]
    have h3 : List.takeWhile (fun c => decide (c ≠ ']')) (']' :: ']' :: r) = [] := by
      rw [List.takeWhile_cons]
      simp
    have h4 : List.dropWhile (fun c => decide (c ≠ ']')) (']' :: ']' :: r) =
        ']' :: ']' :: r := by
      rw [List.dropWhile_cons]
      simp
    rw [h3, h4, List.append_nil, if_neg hy]
    rfl

theorem wikiMatchAt_ne_bracket {c : Char} {cs : Str} (h : c ≠ '[') :
    wikiMatchAt (c :: cs) = none := by
  unfold wikiMatchAt
  split
  · rename_i heq
    cases heq
    cases h rfl
  · rfl

theorem findWikiAux_nil : ∀ fuel : Nat, findWikiAux fuel [] = [] := by
  intro fuel
  cases fuel <;> rfl

theorem findWikiAux_succ_some (fuel : Nat) {c : Char} {cs2 t rest : Str}
    (h : wikiMatchAt (c :: cs2) = some (t, rest)) :
    findWikiAux (fuel + 1) (c :: cs2) = t :: findWikiAux fuel rest := by
  show (match wikiMatchAt (c :: cs2) with
    | some (t, rest) => t :: findWikiAux fuel rest
    | none => findWikiAux fuel cs2) = t :: findWikiAux fuel rest
  rw [h]

theorem findWikiAux_succ_none (fuel : Nat) {c : Char} {cs2 : Str}
    (h : wikiMatchAt (c :: cs2) = none) :
    findWikiAux (fuel + 1) (c :: cs2) = findWikiAux fuel cs2 := by
  show (match wikiMatchAt (c :: cs2) with
    | some (t, rest) => t :: findWikiAux fuel rest
    | none => findWikiAux fuel cs2) = findWikiAux fuel cs2
  rw [h]

theorem findWikiAux_congr : ∀ (f1 f2 : Nat) (cs : Str),
    cs.length ≤ f1 → cs.length ≤ f2 → findWikiAux f1 cs = findWikiAux f2 cs := by
  intro f1
  induction f1 with
  | zero =>
    intro f2 cs h1 _
    have : cs = [] := List.eq_nil_of_length_eq_zero (Nat.le_zero.mp h1)
    subst this
    rw [findWikiAux_nil, findWikiAux_nil]
  | succ a ih =>
    intro f2 cs h1 h2
    cases cs with
    | nil => rw [findWikiAux_nil, findWikiAux_nil]
    | cons c cs2 =>
      cases f2 with
      | zero => simp at h2
      | succ b =>
        simp only [List.length_cons] at h1 h2
        match hm : wikiMatchAt (c :: cs2) with
        | some (t, rest) =>
          rw [findWikiAux_succ_some a hm, findWikiAux_succ_some b hm]
          have hlen := wikiMatchAt_length hm
          simp only [List.length_cons] at hlen
          rw [ih b rest (by omega) (by omega)]
        | none =>
          rw [findWikiAux_succ_none a hm, findWikiAux_succ_none b hm]
          rw [ih b cs2 (by omega) (by omega)]

theorem findWiki_eq_of_match {cs t rest : Str}
    (h : wikiMatchAt cs = some (t, rest)) :
    findWiki cs = t :: findWiki rest := by
  cases cs with
  | nil => simp [wikiMatchAt] at h
  | cons c cs2 =>
    show findWikiAux ((c :: cs2).length) (c :: cs2) = _
    simp only [List.length_cons]
    rw [findWikiAux_succ_some cs2.length h]
    have hlen := wikiMatchAt_length h
    simp only [List.length_cons] at hlen
    rw [findWikiAux_congr cs2.length rest.length rest (by omega)
      (le_refl rest.length)]
    rfl

theorem findWiki_cons_none {c : Char} {cs : Str}
    (h : wikiMatchAt (c :: cs) = none) : findWiki (c :: cs) = findWiki cs := by
  show findWikiAux ((c :: cs).length) (c :: cs) = _
  simp only [List.length_cons]
  rw [findWikiAux_succ_none cs.length h]
  rfl

theorem findWiki_skip {s : Str} (r : Str) (h : ∀ c ∈ s, c ≠ '[') :
    findWiki (s ++ r) = findWiki r := by
  induction s with
  | nil => rfl
  | cons c s2 ih =>
    show findWiki (c :: (s2 ++ r)) = findWiki r
    rw [findWiki_cons_none (wikiMatchAt_ne_bracket (h c (List.mem_cons_self ..)))]
    exact ih (fun c hc => h c (List.mem_cons_of_mem _ hc))

theorem findWiki_renderLine {cs : List Chunk} (h : ∀ ch ∈ cs, goodChunk ch) :
    findWiki (renderLine cs) = targetsOf cs := by
  induction cs with
  | nil => rfl
  | cons ch rest ih =>
    have hch := h ch (List.mem_cons_self ..)
    have hrest := fun c hc => h c (List.mem_cons_of_mem _ hc)
    cases ch with
    | plain s =>
      show findWiki (s ++ renderLine rest) = targetsOf (Chunk.plain s :: rest)
      rw [findWiki_skip _ (fun c hc heq => hch.1 (heq ▸ hc)), ih hrest]
      rfl
    | link t a =>
      show findWiki (renderChunk (.link t a) ++ renderLine rest) = _
      rw [findWiki_eq_of_match (wikiMatchAt_render _ hch), ih hrest]
      rfl

theorem renderChunk_no_newline {ch : Chunk} (h : goodChunk ch) :
    '\n' ∉ renderChunk ch := by
  cases ch with
  | plain s => exact h.2
  | link t a =>
    cases a with
    | none =>
      obtain ⟨_, hchars⟩ := h
      show '\n' ∉ '[' :: '[' :: (t ++ ']' :: ']' :: [])
      intro hm
      simp only [List.mem_cons, List.mem_append, List.not_mem_nil, or_false] at hm
      rcases hm with h1 | h1 | h1 | h1 | h1
      · exact absurd h1 (by decide)
      · exact absurd h1 (by decide)
      · exact (hchars _ h1).2.2 rfl
      · exact absurd h1 (by decide)
      · exact absurd h1 (by decide)
    | some y =>
      obtain ⟨⟨_, hchars⟩, _, hychars⟩ := h
      show '\n' ∉ '[' :: '[' :: (t ++ '|' :: (y ++ ']' :: ']' :: []))
      intro hm
      simp only [List.mem_cons, List.mem_append, List.not_mem_nil, or_false] at hm
      rcases hm with h1 | h1 | h1 | h1 | h1 | h1 | h1
      · exact absurd h1 (by decide)
      · exact absurd h1 (by decide)
      · exact (hchars _ h1).2.2 rfl
      · exact absurd h1 (by decide)
      · exact (hychars _ h1).2 rfl
      · exact absurd h1 (by decide)
      · exact absurd h1 (by decide)

theorem renderLine_no_newline {cs : List Chunk} (h : ∀ ch ∈ cs, goodChunk ch) :
    '\n' ∉ renderLine cs := by
  induction cs with
  | nil => simp [renderLine]
  | cons ch rest ih =>
    show '\n' ∉ renderChunk ch ++ renderLine rest
    intro hm
    rcases List.mem_append.mp hm with h1 | h1
    · exact renderChunk_no_newline (h ch (List.mem_cons_self ..)) h1
    · exact ih (fun c hc => h c (List.mem_cons_of_mem _ hc)) h1

theorem extract_wikilinks_renderLine (n : Int) (root : Str) {cs : List Chunk}
    (h : ∀ ch ∈ cs, goodChunk ch) :
    extract_wikilinks (renderLine cs) n root =
      (targetsOf cs).map (fun t =>
        { target := t, target_path := pathJoin root (t ++ ".md".toList),
          line_number := n }) := by
  unfold extract_wikilinks
  rw [findWiki_renderLine h]

theorem numberFrom_flatMap_render (root : Str) :
    ∀ (lines : List (List Chunk)) (n : Int),
      (∀ cs ∈ lines, ∀ ch ∈ cs, goodChunk ch) →
      (numberFrom n (lines.map renderLine)).flatMap
          (fun p => extract_wikilinks p.2 p.1 root) =
        (numberFrom n lines).flatMap (fun p =>
          (targetsOf p.2).map (fun t =>
            ({ target := t, target_path := pathJoin root (t ++ ".md".toList),
               line_number := p.1 } : WikilinkRec))) := by
  intro lines
  induction lines with
  | nil => intro n _; rfl
  | cons cs rest ih =>
    intro n h
    show ((n, renderLine cs) :: numberFrom (n + 1) (rest.map renderLine)).flatMap
        (fun p => extract_wikilinks p.2 p.1 root) =
      ((n, cs) :: numberFrom (n + 1) rest).flatMap _
    rw [List.flatMap_cons, List.flatMap_cons]
    rw [extract_wikilinks_renderLine n root (h cs (List.mem_cons_self ..))]
    rw [ih (n + 1) (fun cs2 hcs2 => h cs2 (List.mem_cons_of_mem _ hcs2))]

/-- **C5.**  For every content assembled from lines of well-formed chunks
(plain text holding no `[`, and `[[x]]` / `[[x|y]]` links), extraction
yields exactly one wikilink record per link occurrence, in order: the
record's target is `x` (the `|y` display alias is ignored), its
`target_path` is `notes_root` path-joined with `x + ".md"`, and its
`line_number` is the 1-indexed line of the occurrence.  Duplicate
occurrences — same target on the same or different lines — each keep their
own record. -/
theorem claim_wikilink_extraction (fp root : Str) (lines : List (List Chunk))
    (h1 : lines ≠ [])
    (h2 : ∀ cs ∈ lines, ∀ ch ∈ cs, goodChunk ch) :
    (extract_from_file fp root
        (some (joinLines (lines.map renderLine)))).wikilinks =
      (numberFrom 1 lines).flatMap (fun p =>
        (targetsOf p.2).map (fun t =>
          ({ target := t, target_path := pathJoin root (t ++ ".md".toList),
             line_number := p.1 } : WikilinkRec))) := by
  have hnl : ∀ l ∈ lines.map renderLine, '\n' ∉ l := by
    intro l hl
    obtain ⟨cs, hcs, rfl⟩ := List.mem_map.mp hl
    exact renderLine_no_newline (h2 cs hcs)
  have hne : lines.map renderLine ≠ [] := by
    intro hmap
    cases lines with
    | nil => exact h1 rfl
    | cons a b => simp at hmap
  have hs := splitLines_joinLines hne hnl
  show (numberFrom 1 (splitLines (joinLines (lines.map renderLine)))).flatMap
      (fun p => extract_wikilinks p.2 p.1 root) = _
  rw [hs]
  exact numberFrom_flatMap_render root lines 1 h2

/-- Witness for C5: the alias is dropped, paths are joined under the notes
root, line numbers are 1-indexed, and the duplicate `[[a]]` on line 2 keeps
both records. -/
theorem claim_wikilink_extraction_witness :
    (extract_from_file "/n/x.md".toList "/n".toList
        (some (joinLines (c5lines.map renderLine)))).wikilinks =
      [{ target := "project-plan".toList,
         target_path := "/n/project-plan.md".toList, line_number := 1 },
       { target := "a".toList, target_path := "/n/a.md".toList,
         line_number := 2 },
       { target := "a".toList, target_path := "/n/a.md".toList,
         line_number := 2 }] := by
  rw [claim_wikilink_extraction "/n/x.md".toList "/n".toList c5lines
    (by decide) (by decide)]
  decide

end NotesGraph
